import Mathlib

/-!
Verification of the gofang crawler core (internal/crawler) against its
natural-language specification.  The Go source is shallowly embedded:
pure helpers become Lean functions, the stateful orchestrator becomes
explicit state passing driven by a schedule of actions, and the fetch
and extraction collaborators are an oracle parameter, matching the way
the spec treats them as opaque capabilities.
-/

namespace Gofang

/-! ## URL model

The crawler normalizes URLs with Go `net/url`.  We embed `url.Parse`
and `URL.String` for hierarchical http(s) URLs of the shape
`scheme://host[/path][?query][#fragment]`; inputs outside this shape
map to `none`, which `normalizeURL` treats exactly like a parse
failure (both produce the empty string, the only observation the
crawler makes). -/

/-- One component split of Go URL parsing: everything before the first
occurrence of the separator, and, when the separator occurs, everything
after it. -/
def splitAtFirst (c : Char) : List Char → List Char × Option (List Char)
  | [] => ([], none)
  | x :: xs =>
    if x = c then ([], some xs)
    else
      let r := splitAtFirst c xs
      (x :: r.1, r.2)

/-- ASCII lower-casing of one character, as Go applies to URL schemes. -/
def lowerChar (ch : Char) : Char :=
  if 'A' ≤ ch ∧ ch ≤ 'Z' then Char.ofNat (ch.toNat + 32) else ch

/-- The fields of Go `url.URL` that `normalizeURL` reads or writes.
`query = some q` records that a question mark was present (Go
`RawQuery` together with `ForceQuery`). -/
structure GoURL where
  scheme : List Char
  host : List Char
  path : List Char
  query : Option (List Char)
  fragment : List Char
  deriving DecidableEq, Repr

/-- Embedding of `url.Parse` restricted to hierarchical URLs with an
authority part: fragment split at the first hash, query split at the
first question mark, scheme before the first colon and lower-cased,
then host up to the first slash and the path from that slash on.
Other shapes yield `none`. -/
def parseURL (s : List Char) : Option GoURL :=
  let pf := splitAtFirst '#' s
  let pq := splitAtFirst '?' pf.1
  match splitAtFirst ':' pq.1 with
  | (schemeRaw, some rest) =>
    if rest.take 2 = ['/', '/'] then
      let hp := splitAtFirst '/' (rest.drop 2)
      some { scheme := schemeRaw.map lowerChar
           , host := hp.1
           , path := match hp.2 with
                     | none => []
                     | some p => '/' :: p
           , query := pq.2
           , fragment := pf.2.getD [] }
    else none
  | (_, none) => none

/-- Embedding of `url.URL.String` for URLs with a nonempty scheme and
an authority (the only URLs the normalizer re-serializes). -/
def urlString (u : GoURL) : List Char :=
  u.scheme ++ ':' :: '/' :: '/' :: u.host ++ u.path
    ++ (match u.query with
        | none => []
        | some q => '?' :: q)
    ++ (if u.fragment = [] then [] else '#' :: u.fragment)

/-- Go `strings.TrimRight(path, "/")`: remove every trailing slash. -/
def trimTrailingSlashes (l : List Char) : List Char :=
  (l.reverse.dropWhile (· = '/')).reverse

/-- Embedding of `normalizeURL` (crawler.go): parse, reject non-http(s)
schemes, clear the fragment, trim trailing slashes substituting a lone
slash for an emptied path, and re-serialize. -/
def normalizeList (s : List Char) : List Char :=
  match parseURL s with
  | none => []
  | some u =>
    if u.scheme ≠ "http".data ∧ u.scheme ≠ "https".data then []
    else
      let p := trimTrailingSlashes u.path
      urlString { u with fragment := [], path := if p = [] then ['/'] else p }

/-- String-level wrapper of the embedded `normalizeURL`. -/
def normalizeURL (s : String) : String :=
  String.mk (normalizeList s.data)

/-- Modelled from the spec: the normalization algorithm exactly as the
claim words it, with a SINGLE trailing slash stripped from the path. -/
def stripOneTrailingSlash (l : List Char) : List Char :=
  if l.getLast? = some '/' then l.dropLast else l

/-- Modelled from the spec: repeatedly strip single trailing slashes,
i.e. strip all of them. -/
def stripAllTrailingSlashes (l : List Char) : List Char :=
  if _h : l.getLast? = some '/' then stripAllTrailingSlashes l.dropLast else l
termination_by l.length
decreasing_by
  cases l with
  | nil => simp at _h
  | cons a as => simp [List.length_dropLast]

/-- Modelled from the spec: the claimed normalization pipeline with a
single-slash strip (claim C5 as stated). -/
def specNormalizeSingle (s : String) : String :=
  String.mk <|
    match parseURL s.data with
    | none => []
    | some u =>
      if u.scheme ≠ "http".data ∧ u.scheme ≠ "https".data then []
      else
        let p := stripOneTrailingSlash u.path
        urlString { u with fragment := [], path := if p = [] then ['/'] else p }

/-- Modelled from the spec: the normalization pipeline with all
trailing slashes stripped (the amended claim C5). -/
def specNormalizeAll (s : String) : String :=
  String.mk <|
    match parseURL s.data with
    | none => []
    | some u =>
      if u.scheme ≠ "http".data ∧ u.scheme ≠ "https".data then []
      else
        let p := stripAllTrailingSlashes u.path
        urlString { u with fragment := [], path := if p = [] then ['/'] else p }

/-! ## Splitting and trimming lemmas -/

theorem splitAtFirst_cons_self (c : Char) (b : List Char) :
    splitAtFirst c (c :: b) = ([], some b) := by
  simp [splitAtFirst]

theorem splitAtFirst_append_left {c : Char} {a : List Char} (b : List Char)
    (h : c ∉ a) :
    splitAtFirst c (a ++ b) = (a ++ (splitAtFirst c b).1, (splitAtFirst c b).2) := by
  induction a with
  | nil => simp
  | cons x xs ih =>
    have hx : x ≠ c := fun he => h (he ▸ List.mem_cons_self x xs)
    have hxs : c ∉ xs := fun hm => h (List.mem_cons_of_mem x hm)
    simp [splitAtFirst, hx, ih hxs]

theorem splitAtFirst_of_not_mem {c : Char} {l : List Char} (h : c ∉ l) :
    splitAtFirst c l = (l, none) := by
  induction l with
  | nil => rfl
  | cons x xs ih =>
    have hx : x ≠ c := fun he => h (he ▸ List.mem_cons_self x xs)
    have hxs : c ∉ xs := fun hm => h (List.mem_cons_of_mem x hm)
    simp [splitAtFirst, hx, ih hxs]

theorem not_mem_splitAtFirst_fst (c : Char) (l : List Char) :
    c ∉ (splitAtFirst c l).1 := by
  induction l with
  | nil =>
    intro h
    simp [splitAtFirst] at h
  | cons x xs ih =>
    intro h
    by_cases hx : x = c
    · rw [show splitAtFirst c (x :: xs) = ([], some xs) from by
        simp [splitAtFirst, hx]] at h
      simp at h
    · rw [show splitAtFirst c (x :: xs)
          = (x :: (splitAtFirst c xs).1, (splitAtFirst c xs).2) from by
        simp [splitAtFirst, hx]] at h
      rcases List.mem_cons.mp h with h1 | h1
      · exact hx h1.symm
      · exact ih h1

theorem splitAtFirst_decomp {c : Char} {l b : List Char}
    (h : (splitAtFirst c l).2 = some b) :
    l = (splitAtFirst c l).1 ++ c :: b := by
  induction l with
  | nil => simp [splitAtFirst] at h
  | cons x xs ih =>
    by_cases hx : x = c
    · simp [splitAtFirst, hx] at h ⊢
      exact h
    · simp [splitAtFirst, hx] at h ⊢
      exact ih h

theorem mem_of_mem_splitAtFirst_fst {c x : Char} {l : List Char}
    (h : x ∈ (splitAtFirst c l).1) : x ∈ l := by
  rcases hs : (splitAtFirst c l).2 with _ | b
  · induction l with
    | nil =>
      simp [splitAtFirst] at h
    | cons y ys ih =>
      by_cases hy : y = c
      · simp [splitAtFirst, hy] at hs
      · simp [splitAtFirst, hy] at h hs
        rcases h with h | h
        · simp [h]
        · exact List.mem_cons_of_mem _ (ih h hs)
  · rw [splitAtFirst_decomp hs]
    exact List.mem_append_left _ h

theorem mem_of_mem_splitAtFirst_snd {c x : Char} {l b : List Char}
    (hs : (splitAtFirst c l).2 = some b) (h : x ∈ b) : x ∈ l := by
  rw [splitAtFirst_decomp hs]
  exact List.mem_append_right _ (List.mem_cons_of_mem _ h)

theorem dropWhile_dropWhile (p : Char → Bool) (l : List Char) :
    (l.dropWhile p).dropWhile p = l.dropWhile p := by
  induction l with
  | nil => rfl
  | cons x xs ih =>
    by_cases hx : p x
    · simp [List.dropWhile, hx, ih]
    · simp [List.dropWhile, hx]

theorem trimTrailingSlashes_decomp (l : List Char) :
    ∃ ss, l = trimTrailingSlashes l ++ ss ∧ ∀ x ∈ ss, x = '/' := by
  refine ⟨(l.reverse.takeWhile (· = '/')).reverse, ?_, ?_⟩
  · have h := @List.takeWhile_append_dropWhile Char (· = '/') l.reverse
    calc l = l.reverse.reverse := (List.reverse_reverse l).symm
    _ = (l.reverse.takeWhile (· = '/') ++ l.reverse.dropWhile (· = '/')).reverse := by
        rw [h]
    _ = trimTrailingSlashes l ++ (l.reverse.takeWhile (· = '/')).reverse := by
        rw [List.reverse_append]; rfl
  · intro x hx
    have hx1 : x ∈ List.takeWhile (· = '/') l.reverse := List.mem_reverse.mp hx
    have hx2 := List.mem_takeWhile_imp hx1
    exact of_decide_eq_true hx2

theorem mem_of_mem_trimTrailingSlashes {x : Char} {l : List Char}
    (h : x ∈ trimTrailingSlashes l) : x ∈ l := by
  obtain ⟨ss, hd, _⟩ := trimTrailingSlashes_decomp l
  rw [hd]
  exact List.mem_append_left _ h

theorem trimTrailingSlashes_idem (l : List Char) :
    trimTrailingSlashes (trimTrailingSlashes l) = trimTrailingSlashes l := by
  unfold trimTrailingSlashes
  rw [List.reverse_reverse, dropWhile_dropWhile]

theorem trimTrailingSlashes_append_slash (l : List Char) :
    trimTrailingSlashes (l ++ ['/']) = trimTrailingSlashes l := by
  unfold trimTrailingSlashes
  simp [List.dropWhile]

theorem trimTrailingSlashes_eq_stripAll (l : List Char) :
    trimTrailingSlashes l = stripAllTrailingSlashes l := by
  rw [stripAllTrailingSlashes]
  split
  · rename_i h
    have hne : l ≠ [] := by
      intro he; rw [he] at h; simp at h
    have hdec : l = l.dropLast ++ ['/'] := by
      conv_lhs => rw [← List.dropLast_append_getLast hne]
      have : l.getLast hne = '/' := by
        have := List.getLast?_eq_getLast l hne
        rw [this] at h
        exact Option.some.inj h
      rw [this]
    calc trimTrailingSlashes l = trimTrailingSlashes (l.dropLast ++ ['/']) := by
          conv_lhs => rw [hdec]
    _ = trimTrailingSlashes l.dropLast := trimTrailingSlashes_append_slash _
    _ = stripAllTrailingSlashes l.dropLast := trimTrailingSlashes_eq_stripAll _
  · rename_i h
    rcases hl : l.getLast? with _ | a
    · have : l = [] := by
        cases l with
        | nil => rfl
        | cons x xs => simp [List.getLast?_eq_getLast] at hl
      rw [this]; rfl
    · have ha : a ≠ '/' := fun he => h (he ▸ hl)
      have hrev : l.reverse.head? = some a := by
        rw [List.head?_reverse]; exact hl
      rcases hr : l.reverse with _ | ⟨y, ys⟩
      · simp at hr
        rw [hr]; rfl
      · rw [hr] at hrev
        have hy : y = a := by simpa using hrev
        have hys : l.reverse.dropWhile (· = '/') = l.reverse := by
          rw [hr, List.dropWhile_cons]
          simp [hy, ha]
        unfold trimTrailingSlashes
        rw [hys, List.reverse_reverse]
termination_by l.length
decreasing_by
  rename_i h
  have hne : l ≠ [] := by
    intro he; rw [he] at h; simp at h
  cases l with
  | nil => exact absurd rfl hne
  | cons a as => simp [List.length_dropLast]

/-! ## Parse and serialize roundtrip -/

/-- Unfolded form of `parseURL`, keyed on the result of the scheme
split, convenient for rewriting. -/
theorem parseURL_eq (s : List Char) :
    parseURL s =
      match (splitAtFirst ':' (splitAtFirst '?' (splitAtFirst '#' s).1).1).2 with
      | none => none
      | some rest =>
        if rest.take 2 = ['/', '/'] then
          some { scheme :=
                   (splitAtFirst ':' (splitAtFirst '?' (splitAtFirst '#' s).1).1).1.map
                     lowerChar
               , host := (splitAtFirst '/' (rest.drop 2)).1
               , path := match (splitAtFirst '/' (rest.drop 2)).2 with
                         | none => []
                         | some p => '/' :: p
               , query := (splitAtFirst '?' (splitAtFirst '#' s).1).2
               , fragment := (splitAtFirst '#' s).2.getD [] }
        else none := by
  rw [parseURL]
  rcases hsp : splitAtFirst ':' (splitAtFirst '?' (splitAtFirst '#' s).1).1
    with ⟨a, _ | rest⟩ <;> rfl

/-- Character-level facts about the components produced by `parseURL`. -/
theorem parseURL_fields {l : List Char} {u : GoURL} (h : parseURL l = some u) :
    (∀ x ∈ u.host, x ≠ '#' ∧ x ≠ '?' ∧ x ≠ '/') ∧
    (u.path = [] ∨ ∃ p, u.path = '/' :: p) ∧
    (∀ x ∈ u.path, x ≠ '#' ∧ x ≠ '?') ∧
    (∀ q, u.query = some q → ∀ x ∈ q, x ≠ '#') := by
  rw [parseURL_eq] at h
  have hbase : ∀ x ∈ (splitAtFirst '?' (splitAtFirst '#' l).1).1, x ≠ '?' ∧ x ≠ '#' := by
    intro x hx
    constructor
    · intro he
      exact not_mem_splitAtFirst_fst '?' (splitAtFirst '#' l).1 (he ▸ hx)
    · intro he
      have hx2 : x ∈ (splitAtFirst '#' l).1 := mem_of_mem_splitAtFirst_fst hx
      exact not_mem_splitAtFirst_fst '#' l (he ▸ hx2)
  rcases hsp : (splitAtFirst ':' (splitAtFirst '?' (splitAtFirst '#' l).1).1).2
    with _ | rest
  · rw [hsp] at h
    dsimp only at h
    exact absurd h (by simp)
  · rw [hsp] at h
    dsimp only at h
    by_cases ht : rest.take 2 = ['/', '/']
    · rw [if_pos ht] at h
      have hrest : ∀ x ∈ rest, x ≠ '?' ∧ x ≠ '#' := by
        intro x hx
        exact hbase x (mem_of_mem_splitAtFirst_snd hsp hx)
      have hdrop : ∀ x ∈ rest.drop 2, x ≠ '?' ∧ x ≠ '#' :=
        fun x hx => hrest x (List.mem_of_mem_drop hx)
      have hu := Option.some.inj h
      constructor
      · intro x hx
        have hxh : x ∈ (splitAtFirst '/' (rest.drop 2)).1 := by
          rw [← hu] at hx
          exact hx
        have hxd : x ∈ rest.drop 2 := mem_of_mem_splitAtFirst_fst hxh
        refine ⟨(hdrop x hxd).2, (hdrop x hxd).1, ?_⟩
        intro he
        exact not_mem_splitAtFirst_fst '/' (rest.drop 2) (he ▸ hxh)
      refine ⟨?_, ?_, ?_⟩
      · rcases hps : (splitAtFirst '/' (rest.drop 2)).2 with _ | p
        · left
          rw [← hu]
          simp [hps]
        · right
          refine ⟨p, ?_⟩
          rw [← hu]
          simp [hps]
      · intro x hx
        rw [← hu] at hx
        rcases hps : (splitAtFirst '/' (rest.drop 2)).2 with _ | p
        · simp [hps] at hx
        · simp [hps] at hx
          rcases hx with rfl | hx
          · exact ⟨by decide, by decide⟩
          · have hxd : x ∈ rest.drop 2 := mem_of_mem_splitAtFirst_snd hps hx
            exact ⟨(hdrop x hxd).2, (hdrop x hxd).1⟩
      · intro q hq x hx
        have hq2 : (splitAtFirst '?' (splitAtFirst '#' l).1).2 = some q := by
          rw [← hu] at hq
          exact hq
        have hx2 : x ∈ (splitAtFirst '#' l).1 := mem_of_mem_splitAtFirst_snd hq2 hx
        intro he
        exact not_mem_splitAtFirst_fst '#' l (he ▸ hx2)
    · rw [if_neg ht] at h
      simp at h

/-- Serializing a normalized http(s) URL and parsing it back is the
identity: the key step behind normalization idempotence. -/
theorem parseURL_urlString (u : GoURL)
    (hs : u.scheme = "http".data ∨ u.scheme = "https".data)
    (hh : ∀ x ∈ u.host, x ≠ '#' ∧ x ≠ '?' ∧ x ≠ '/')
    (hpHead : ∃ p, u.path = '/' :: p)
    (hp : ∀ x ∈ u.path, x ≠ '#' ∧ x ≠ '?')
    (hq : ∀ q, u.query = some q → ∀ x ∈ q, x ≠ '#')
    (hf : u.fragment = []) :
    parseURL (urlString u) = some u := by
  obtain ⟨p0, hp0⟩ := hpHead
  have hsch : ∀ x ∈ u.scheme, x ≠ '#' ∧ x ≠ '?' ∧ x ≠ ':' ∧ x ≠ '/' := by
    rcases hs with h | h <;> rw [h] <;> decide
  have hmap : u.scheme.map lowerChar = u.scheme := by
    rcases hs with h | h <;> rw [h] <;> decide
  have hsub : ∀ y ∈ p0, y ∈ u.path := by
    intro y hy
    rw [hp0]
    exact List.mem_cons_of_mem _ hy
  -- membership in the authority-and-path section of the serialization
  have hmemw : ∀ x, x ∈ u.scheme ++ ':' :: '/' :: '/' :: (u.host ++ '/' :: p0) →
      x ∈ u.scheme ∨ x = ':' ∨ x = '/' ∨ x ∈ u.host ∨ x ∈ u.path := by
    intro x hx
    simp only [List.mem_append, List.mem_cons] at hx
    rcases hx with hx | hx | hx | hx | hx | hx | hx
    · exact Or.inl hx
    · exact Or.inr (Or.inl hx)
    · exact Or.inr (Or.inr (Or.inl hx))
    · exact Or.inr (Or.inr (Or.inl hx))
    · exact Or.inr (Or.inr (Or.inr (Or.inl hx)))
    · exact Or.inr (Or.inr (Or.inl hx))
    · exact Or.inr (Or.inr (Or.inr (Or.inr (hsub x hx))))
  have hpreQ : '?' ∉ u.scheme ++ ':' :: '/' :: '/' :: (u.host ++ '/' :: p0) := by
    intro hm
    rcases hmemw _ hm with h | h | h | h | h
    · exact (hsch _ h).2.1 rfl
    · exact absurd h (by decide)
    · exact absurd h (by decide)
    · exact (hh _ h).2.1 rfl
    · exact (hp _ h).2 rfl
  have hpreH : '#' ∉ u.scheme ++ ':' :: '/' :: '/' :: (u.host ++ '/' :: p0) := by
    intro hm
    rcases hmemw _ hm with h | h | h | h | h
    · exact (hsch _ h).1 rfl
    · exact absurd h (by decide)
    · exact absurd h (by decide)
    · exact (hh _ h).1 rfl
    · exact (hp _ h).1 rfl
  have hstep3 : splitAtFirst ':' (u.scheme ++ ':' :: '/' :: '/' :: (u.host ++ '/' :: p0))
      = (u.scheme, some ('/' :: '/' :: (u.host ++ '/' :: p0))) := by
    rw [splitAtFirst_append_left _ (fun hm => (hsch _ hm).2.2.1 rfl),
      splitAtFirst_cons_self]
    simp
  have hstep5 : splitAtFirst '/' (u.host ++ '/' :: p0) = (u.host, some p0) := by
    rw [splitAtFirst_append_left _ (fun hm => (hh _ hm).2.2 rfl),
      splitAtFirst_cons_self]
    simp
  have htake : List.take 2 ('/' :: '/' :: (u.host ++ '/' :: p0)) = ['/', '/'] := rfl
  have hdrop2 : List.drop 2 ('/' :: '/' :: (u.host ++ '/' :: p0)) = u.host ++ '/' :: p0 :=
    rfl
  rcases hu : u.query with _ | q
  · have hw : urlString u = u.scheme ++ ':' :: '/' :: '/' :: (u.host ++ '/' :: p0) := by
      rw [urlString, hu, hf, hp0]
      simp
    have h1 : splitAtFirst '#' (urlString u) = (urlString u, none) :=
      splitAtFirst_of_not_mem (by rw [hw]; exact hpreH)
    have h2 : splitAtFirst '?' (urlString u) = (urlString u, none) :=
      splitAtFirst_of_not_mem (by rw [hw]; exact hpreQ)
    have h3 : splitAtFirst ':' (urlString u)
        = (u.scheme, some ('/' :: '/' :: (u.host ++ '/' :: p0))) := by
      rw [hw]; exact hstep3
    rw [parseURL_eq]
    simp only [h1, h2, h3]
    rw [if_pos htake]
    simp only [hdrop2, hstep5, hmap]
    cases u with
    | mk sc ho pa qu fr =>
      dsimp only at hp0 hu hf ⊢
      rw [hp0, hu, hf]
      rfl
  · have hw : urlString u
        = (u.scheme ++ ':' :: '/' :: '/' :: (u.host ++ '/' :: p0)) ++ '?' :: q := by
      rw [urlString, hu, hf, hp0]
      simp
    have hqH : ∀ x ∈ q, x ≠ '#' := hq q hu
    have h1 : splitAtFirst '#' (urlString u) = (urlString u, none) := by
      refine splitAtFirst_of_not_mem ?_
      rw [hw]
      intro hm
      rcases List.mem_append.mp hm with hm | hm
      · exact hpreH hm
      · rcases List.mem_cons.mp hm with hm | hm
        · exact absurd hm (by decide)
        · exact hqH _ hm rfl
    have h2 : splitAtFirst '?' (urlString u)
        = (u.scheme ++ ':' :: '/' :: '/' :: (u.host ++ '/' :: p0), some q) := by
      rw [hw, splitAtFirst_append_left _ hpreQ, splitAtFirst_cons_self]
      simp
    rw [parseURL_eq]
    simp only [h1, h2, hstep3]
    rw [if_pos htake]
    simp only [hdrop2, hstep5, hmap]
    cases u with
    | mk sc ho pa qu fr =>
      dsimp only at hp0 hu hf ⊢
      rw [hp0, hu, hf]
      rfl

/-! ## Normalization equations and idempotence -/

theorem normalizeList_eq_none {l : List Char} (h : parseURL l = none) :
    normalizeList l = [] := by
  rw [normalizeList, h]

theorem normalizeList_eq_some {l : List Char} {u : GoURL} (h : parseURL l = some u) :
    normalizeList l =
      if u.scheme ≠ "http".data ∧ u.scheme ≠ "https".data then []
      else
        urlString { u with fragment := [], path := if trimTrailingSlashes u.path = [] then ['/'] else trimTrailingSlashes u.path } := by
  rw [normalizeList, h]

theorem normalizeList_idem (l : List Char) (h : normalizeList l ≠ []) :
    normalizeList (normalizeList l) = normalizeList l := by
  rcases hp : parseURL l with _ | u
  · exact absurd (normalizeList_eq_none hp) h
  · obtain ⟨sc, ho, pa, qu, fr⟩ := u
    have heq := normalizeList_eq_some hp
    dsimp only at heq
    by_cases hg : sc ≠ "http".data ∧ sc ≠ "https".data
    · rw [heq, if_pos hg] at h
      exact absurd rfl h
    · rw [if_neg hg] at heq
      have hs : sc = "http".data ∨ sc = "https".data := by
        rcases not_and_or.mp hg with h1 | h1
        · exact Or.inl (not_not.mp h1)
        · exact Or.inr (not_not.mp h1)
      obtain ⟨hh, hpshape, hpmem, hqmem⟩ := parseURL_fields hp
      dsimp only at hh hpshape hpmem hqmem
      have hPhead : ∃ t, (if trimTrailingSlashes pa = [] then ['/']
          else trimTrailingSlashes pa) = '/' :: t := by
        by_cases hz : trimTrailingSlashes pa = []
        · exact ⟨[], by rw [if_pos hz]⟩
        · rw [if_neg hz]
          rcases hpshape with hnil | ⟨p0, hp0⟩
          · rw [hnil] at hz
            exact absurd rfl hz
          · obtain ⟨ss, hdec, _⟩ := trimTrailingSlashes_decomp pa
            rcases htr : trimTrailingSlashes pa with _ | ⟨a, t⟩
            · exact absurd htr hz
            · rw [htr] at hdec
              rw [hp0] at hdec
              simp only [List.cons_append] at hdec
              have ha : '/' = a := (List.cons.injEq _ _ _ _ ▸ hdec).1
              exact ⟨t, by rw [← ha]⟩
      have hPmem : ∀ x ∈ (if trimTrailingSlashes pa = [] then ['/']
          else trimTrailingSlashes pa), x ≠ '#' ∧ x ≠ '?' := by
        by_cases hz : trimTrailingSlashes pa = []
        · rw [if_pos hz]
          intro x hx
          rcases List.mem_cons.mp hx with hx | hx
          · subst hx
            exact ⟨by decide, by decide⟩
          · simp at hx
        · rw [if_neg hz]
          intro x hx
          exact hpmem x (mem_of_mem_trimTrailingSlashes hx)
      have hQ : (if trimTrailingSlashes (if trimTrailingSlashes pa = [] then ['/']
            else trimTrailingSlashes pa) = [] then ['/']
          else trimTrailingSlashes (if trimTrailingSlashes pa = [] then ['/']
            else trimTrailingSlashes pa))
          = (if trimTrailingSlashes pa = [] then ['/'] else trimTrailingSlashes pa) := by
        by_cases hz : trimTrailingSlashes pa = []
        · rw [if_pos hz]
          have htl : trimTrailingSlashes ['/'] = [] := by decide
          rw [htl, if_pos rfl]
        · rw [if_neg hz, trimTrailingSlashes_idem]
          rw [if_neg hz]
      have hround : parseURL (urlString
            { scheme := sc, host := ho
            , path := if trimTrailingSlashes pa = [] then ['/'] else trimTrailingSlashes pa
            , query := qu, fragment := [] })
          = some { scheme := sc, host := ho
                 , path := if trimTrailingSlashes pa = [] then ['/']
                           else trimTrailingSlashes pa
                 , query := qu, fragment := [] } := by
        refine parseURL_urlString _ hs hh hPhead hPmem ?_ rfl
        exact hqmem
      rw [heq]
      rw [normalizeList_eq_some hround]
      dsimp only
      rw [if_neg hg, hQ]

/-! ## Claim theorems for normalization (C9 and C5) -/

/-- Claim C9: normalization is idempotent: whenever `normalizeURL` accepts a
URL string (nonempty result), applying it again returns the same
string. -/
theorem normalizeURL_idempotent (s : String) (h : normalizeURL s ≠ "") :
    normalizeURL (normalizeURL s) = normalizeURL s := by
  have hl : normalizeList s.data ≠ [] := by
    intro he
    apply h
    rw [normalizeURL, he]
  have hidem := normalizeList_idem s.data hl
  rw [normalizeURL, normalizeURL]
  exact congrArg String.mk hidem

/-- Witness for C9 at a concrete accepted URL. -/
theorem normalizeURL_idempotent_witness :
    normalizeURL "http://example.com/a/" ≠ "" ∧
    normalizeURL (normalizeURL "http://example.com/a/")
      = normalizeURL "http://example.com/a/" :=
  ⟨by decide, normalizeURL_idempotent "http://example.com/a/" (by decide)⟩

/-- Claim C5 counterexample: the code trims ALL trailing slashes (Go
`strings.TrimRight`), not the single trailing slash the claim
describes; they disagree on a path that ends in two slashes. -/
theorem normalizeURL_single_slash_cex :
    normalizeURL "http://h/a//" = "http://h/a" ∧
    specNormalizeSingle "http://h/a//" = "http://h/a/" ∧
    normalizeURL "http://h/a//" ≠ specNormalizeSingle "http://h/a//" := by
  decide

/-- Claim C5 amended: normalizeURL parses the URL, returns the empty string
when parsing fails or the scheme is neither http nor https, and
otherwise clears the fragment, strips ALL trailing slashes from the
path (substituting a lone slash when the path becomes empty), and
re-serializes. -/
theorem normalizeURL_spec_all_slashes (s : String) :
    normalizeURL s = specNormalizeAll s := by
  rw [normalizeURL, specNormalizeAll]
  refine congrArg String.mk ?_
  rcases hp : parseURL s.data with _ | u
  · rw [normalizeList_eq_none hp]
  · rw [normalizeList_eq_some hp]
    dsimp only
    rw [trimTrailingSlashes_eq_stripAll]

/-! ## Crawler data model

Embedding of the orchestrator in internal/crawler/crawler.go.  Go ints
are `Int`; counters that start at zero and only grow are `Nat`.  The
fetch and extraction collaborators are combined into one oracle
returning either a fetch error or the extracted items of the page, the
only observations processURL makes of them. -/

/-- Fetcher selection modes (crawler config). -/
inductive FetcherMode
  | http
  | browser
  | auto
  deriving DecidableEq, Repr

/-- The fields of CrawlConfig that the orchestrator core reads.
Presentation and request-level options consumed only by the fetch
collaborators are omitted.  `crawlDuration` is the overall
crawl-duration ceiling in nanoseconds (Go time.Duration). -/
structure CrawlConfig where
  targetURL : String
  maxDepth : Int
  maxPages : Int
  parallelism : Int
  crawlDuration : Int
  fetcherMode : FetcherMode
  allowExternal : Bool
  saveOutput : Bool
  deriving DecidableEq, Repr

/-- A frontier entry: normalized URL plus depth (queueItem in Go). -/
structure QueueItem where
  url : String
  depth : Int
  deriving DecidableEq, Repr

/-- One extracted item as the scheduler observes it: the type tag, the
value, and the link_type metadata entry used for link filtering. -/
structure ExtractedItem where
  type : String
  value : String
  linkType : String
  deriving DecidableEq, Repr

/-- Result of fetching and extracting one page, supplied by the
collaborator oracle. -/
inductive FetchOutcome
  | fetchError (msg : String)
  | success (items : List ExtractedItem)
  deriving DecidableEq, Repr

/-- Crawl lifecycle events, with the fields the claims mention. -/
inductive CrawlEvent
  | crawlStarted (url : String)
  | pageQueued (url : String)
  | pageStarted (url : String)
  | pageDone (url : String)
  | pageError (url : String) (msg : String)
  | crawlFinished
  deriving DecidableEq, Repr

/-- Which fetch capability was chosen for a page. -/
inductive FetcherKind
  | http
  | browser
  deriving DecidableEq, Repr

/-- Frontier, stats and event state of the crawler.  `visited` is the
insertion-ordered visited set, `queue` the pending queue.  `events`
records every emit call (the event bus itself is lossy towards a slow
consumer, which drops delivery but not emission).  `written` records
WriteResult calls on the output sink.  `created` is a history variable
accumulating every queue item ever created. -/
structure CrawlState where
  visited : List String
  queue : List QueueItem
  pagesQueued : Nat
  pagesCrawled : Nat
  pagesErrored : Nat
  itemsExtracted : Nat
  events : List CrawlEvent
  written : List String
  created : List QueueItem
  deriving DecidableEq, Repr

/-- Embedding of Crawler.enqueue: normalize; drop on normalization
failure; drop if already visited; drop if the visited count is at or
above MaxPages; otherwise mark visited, append to the queue, bump the
queued counter and emit a queued event. -/
def enqueue (cfg : CrawlConfig) (s : CrawlState) (rawURL : String) (depth : Int) :
    CrawlState :=
  let normalized := normalizeURL rawURL
  if normalized = "" then s
  else if normalized ∈ s.visited then s
  else if (s.visited.length : Int) ≥ cfg.maxPages then s
  else
    { s with
      visited := s.visited ++ [normalized]
      queue := s.queue ++ [⟨normalized, depth⟩]
      created := s.created ++ [⟨normalized, depth⟩]
      pagesQueued := s.pagesQueued + 1
      events := s.events ++ [.pageQueued normalized] }

/-- Embedding of Crawler.chooseFetcher.  `browAvail` is whether the
browser fetcher came up at Init time (browFetch is non-nil);
`pagesCrawled` is the stats counter read under the stats lock. -/
def chooseFetcher (cfg : CrawlConfig) (browAvail : Bool) (pagesCrawled : Nat) :
    FetcherKind :=
  match cfg.fetcherMode with
  | .http => .http
  | .browser => if browAvail then .browser else .http
  | .auto =>
    if browAvail then
      if pagesCrawled = 0 then .browser else .http
    else .http

/-- The link-discovery loop at the end of processURL: enqueue, at the
given depth, the value of every extracted item whose type tag is
"link" and whose link_type metadata is "internal" (or any link when
external following is enabled). -/
def discoverLinks (cfg : CrawlConfig) (d : Int) (items : List ExtractedItem)
    (s : CrawlState) : CrawlState :=
  items.foldl (fun acc it =>
    if it.type = "link" ∧ (it.linkType = "internal" ∨ cfg.allowExternal = true) then
      enqueue cfg acc it.value d
    else acc) s

/-- Embedding of Crawler.processURL for one dequeued item: emit
started, choose a fetcher, fetch via the oracle; on error bump the
error counter and emit an error event and stop; on success record the
result, bump the crawled and item counters, emit done, and enqueue
every extracted link of an internal page (or any page when external
following is on) as long as the current depth is below MaxDepth.
Returns the new frontier state and the fetcher that was used. -/
def processURL (cfg : CrawlConfig) (browAvail : Bool)
    (oracle : String → Int → FetchOutcome) (s : CrawlState) (item : QueueItem) :
    CrawlState × FetcherKind :=
  let s1 := { s with events := s.events ++ [CrawlEvent.pageStarted item.url] }
  let fk := chooseFetcher cfg browAvail s1.pagesCrawled
  match oracle item.url item.depth with
  | .fetchError msg =>
    ({ s1 with
        pagesErrored := s1.pagesErrored + 1
        events := s1.events ++ [CrawlEvent.pageError item.url msg] }, fk)
  | .success items =>
    let s2 := { s1 with
      written := if cfg.saveOutput then s1.written ++ [item.url] else s1.written }
    let s3 := { s2 with
      pagesCrawled := s2.pagesCrawled + 1
      itemsExtracted := s2.itemsExtracted + items.length
      events := s2.events ++ [CrawlEvent.pageDone item.url] }
    if item.depth < cfg.maxDepth then
      (discoverLinks cfg (item.depth + 1) items s3, fk)
    else (s3, fk)

/-- Scheduler state: frontier state, in-flight work units (spawned,
not yet completed), the processed log of completed units with the
fetcher each used, whether the dispatch loop has exited, the
cooperative stop flag, and whether the crawl finalized. -/
structure SchedState where
  fr : CrawlState
  inFlight : List QueueItem
  processedLog : List (QueueItem × FetcherKind)
  mainLoopDone : Bool
  stopped : Bool
  finished : Bool
  deriving DecidableEq, Repr

/-- Scheduling actions resolving the nondeterminism of the worker
pool: one main-loop iteration, completion of the i-th in-flight
worker, an external Stop call, and the return of wg.Wait followed by
finalization. -/
inductive Action
  | dispatch
  | complete (i : Nat)
  | stop
  | finish
  deriving DecidableEq, Repr

/-- One interleaving step of Crawler.Run.  `dispatch` is one iteration
of the control loop: dequeue first; on an empty queue break out of the
loop for good; otherwise check the stop flag and break (dropping the
dequeued item) when stopped; otherwise block on the concurrency gate
and spawn a worker.  `complete i` runs processURL of the i-th in-flight
worker to completion.  `finish` models wg.Wait returning once the
loop has exited and no worker is in flight, after which the
crawl-finished event is emitted. -/
def step (cfg : CrawlConfig) (browAvail : Bool)
    (oracle : String → Int → FetchOutcome) (s : SchedState) (a : Action) : SchedState :=
  match a with
  | .stop => { s with stopped := true }
  | .dispatch =>
    if s.mainLoopDone then s
    else
      match s.fr.queue with
      | [] => { s with mainLoopDone := true }
      | item :: rest =>
        if s.stopped then
          { s with fr := { s.fr with queue := rest }, mainLoopDone := true }
        else if (s.inFlight.length : Int) < cfg.parallelism then
          { s with fr := { s.fr with queue := rest }, inFlight := s.inFlight ++ [item] }
        else s
  | .complete i =>
    match s.inFlight[i]? with
    | none => s
    | some item =>
      let r := processURL cfg browAvail oracle s.fr item
      { s with
        fr := r.1
        inFlight := s.inFlight.eraseIdx i
        processedLog := s.processedLog ++ [(item, r.2)] }
  | .finish =>
    if s.mainLoopDone ∧ s.inFlight = [] ∧ s.finished = false then
      { s with
        finished := true
        fr := { s.fr with events := s.fr.events ++ [.crawlFinished] } }
    else s

/-- The crawl state right after Run emits crawl-started and seeds the
queue with the target URL at depth 0. -/
def initialCrawl (cfg : CrawlConfig) : CrawlState :=
  enqueue cfg
    { visited := [], queue := [], pagesQueued := 0, pagesCrawled := 0
    , pagesErrored := 0, itemsExtracted := 0
    , events := [.crawlStarted cfg.targetURL], written := [], created := [] }
    cfg.targetURL 0

/-- Initial scheduler state of a run. -/
def initSched (cfg : CrawlConfig) : SchedState :=
  { fr := initialCrawl cfg, inFlight := [], processedLog := []
  , mainLoopDone := false, stopped := false, finished := false }

/-- Execute a schedule of actions from the start of a run. -/
def runActs (cfg : CrawlConfig) (browAvail : Bool)
    (oracle : String → Int → FetchOutcome) (acts : List Action) : SchedState :=
  acts.foldl (step cfg browAvail oracle) (initSched cfg)

/-- Execute a schedule of actions from an arbitrary state. -/
def runFrom (cfg : CrawlConfig) (browAvail : Bool)
    (oracle : String → Int → FetchOutcome) (s : SchedState) (acts : List Action) :
    SchedState :=
  acts.foldl (step cfg browAvail oracle) s

/-! ## Frontier lemmas -/

/-- Case analysis of one enqueue call: either a silent no-op, or the
successful branch appending exactly one queue item, one visited entry,
one queued event and one counter bump. -/
theorem enqueue_spec (cfg : CrawlConfig) (s : CrawlState) (u : String) (d : Int) :
    enqueue cfg s u d = s ∨
    (normalizeURL u ≠ "" ∧ normalizeURL u ∉ s.visited ∧
     (s.visited.length : Int) < cfg.maxPages ∧
     enqueue cfg s u d = { s with
        visited := s.visited ++ [normalizeURL u]
        queue := s.queue ++ [⟨normalizeURL u, d⟩]
        created := s.created ++ [⟨normalizeURL u, d⟩]
        pagesQueued := s.pagesQueued + 1
        events := s.events ++ [CrawlEvent.pageQueued (normalizeURL u)] }) := by
  simp only [enqueue]
  by_cases h1 : normalizeURL u = ""
  · left
    rw [if_pos h1]
  · rw [if_neg h1]
    by_cases h2 : normalizeURL u ∈ s.visited
    · left
      rw [if_pos h2]
    · rw [if_neg h2]
      by_cases h3 : (s.visited.length : Int) ≥ cfg.maxPages
      · left
        rw [if_pos h3]
      · right
        refine ⟨h1, h2, not_le.mp h3, ?_⟩
        rw [if_neg h3]

/-- An enqueue of a URL whose normalization is already visited is a
no-op, whatever its depth. -/
theorem enqueue_of_visited (cfg : CrawlConfig) (s : CrawlState) (u : String) (d : Int)
    (h : normalizeURL u ∈ s.visited) : enqueue cfg s u d = s := by
  rcases enqueue_spec cfg s u d with he | ⟨_, h2, _, _⟩
  · exact he
  · exact absurd h h2

/-- A sequence of enqueue calls, in order. -/
def enqueueAll (cfg : CrawlConfig) (s : CrawlState) (calls : List (String × Int)) :
    CrawlState :=
  calls.foldl (fun acc c => enqueue cfg acc c.1 c.2) s

/-- The crawl state produced by New: empty visited set and queue, zero
counters. -/
def newCrawl : CrawlState :=
  { visited := [], queue := [], pagesQueued := 0, pagesCrawled := 0
  , pagesErrored := 0, itemsExtracted := 0, events := [], written := []
  , created := [] }

theorem enqueueAll_visited_le (cfg : CrawlConfig) :
    ∀ (calls : List (String × Int)) (s : CrawlState),
      (s.visited.length : Int) ≤ cfg.maxPages →
      ((enqueueAll cfg s calls).visited.length : Int) ≤ cfg.maxPages := by
  intro calls
  induction calls with
  | nil =>
    intro s hs
    exact hs
  | cons c cs ih =>
    intro s hs
    have hstep : (((enqueue cfg s c.1 c.2).visited.length : Int)) ≤ cfg.maxPages := by
      rcases enqueue_spec cfg s c.1 c.2 with he | ⟨_, _, h3, he⟩
      · rw [he]
        exact hs
      · rw [he]
        simp only [List.length_append, List.length_cons, List.length_nil]
        push_cast
        omega
    exact ih _ hstep

/-- Enqueues of normalization-equivalent variants of an already
visited URL leave the state untouched. -/
theorem enqueueAll_noop (cfg : CrawlConfig) (n : String) :
    ∀ (calls : List (String × Int)) (s : CrawlState), n ∈ s.visited →
      (∀ p ∈ calls, normalizeURL p.1 = n) → enqueueAll cfg s calls = s := by
  intro calls
  induction calls with
  | nil =>
    intro s _ _
    rfl
  | cons c cs ih =>
    intro s hn hall
    have hc : normalizeURL c.1 = n := hall c (List.mem_cons_self c cs)
    have he : enqueue cfg s c.1 c.2 = s :=
      enqueue_of_visited cfg s c.1 c.2 (hc ▸ hn)
    show enqueueAll cfg (enqueue cfg s c.1 c.2) cs = s
    rw [he]
    exact ih s hn (fun p hp => hall p (List.mem_cons_of_mem c hp))

/-! ## Claim theorems C2 and C3 (frontier) -/

/-- Claim C2: starting from a fresh crawl state, no sequence of enqueue
calls ever pushes the visited-set size past MaxPages (the visited set
only ever grows, so its size is the number of entries ever added), and
the cap is enforced inside enqueue itself: at or above the cap the
visited set is left untouched by any call. -/
theorem visitedSet_maxPages_cap (cfg : CrawlConfig) (h : 0 ≤ cfg.maxPages) :
    (∀ calls : List (String × Int),
        ((enqueueAll cfg newCrawl calls).visited.length : Int) ≤ cfg.maxPages) ∧
    (∀ (s : CrawlState) (u : String) (d : Int),
        (s.visited.length : Int) ≥ cfg.maxPages →
        (enqueue cfg s u d).visited = s.visited) := by
  constructor
  · intro calls
    refine enqueueAll_visited_le cfg calls newCrawl ?_
    simpa [newCrawl] using h
  · intro s u d hcap
    rcases enqueue_spec cfg s u d with he | ⟨_, _, h3, _⟩
    · rw [he]
    · exact absurd hcap (not_le.mpr h3)

/-- Configuration used by the concrete runs below: default-like caps
with the basic fetcher. -/
def cexCfg : CrawlConfig :=
  { targetURL := "http://seed.com", maxDepth := 1, maxPages := 500
  , parallelism := 5, crawlDuration := 0, fetcherMode := .http
  , allowExternal := false, saveOutput := false }

/-- Oracle for the concrete runs: every page succeeds and contains one
internal link. -/
def cexOracle : String → Int → FetchOutcome := fun _ _ =>
  .success [⟨"link", "http://seed.com/a", "internal"⟩]

/-- Witness for C2 at a concrete configuration and call sequence. -/
theorem visitedSet_maxPages_cap_witness :
    0 ≤ cexCfg.maxPages ∧
    ((enqueueAll cexCfg newCrawl
        [("http://seed.com", 0), ("http://seed.com", 1)]).visited.length : Int)
      ≤ cexCfg.maxPages :=
  ⟨by decide,
   (visitedSet_maxPages_cap cexCfg (by decide)).1
     [("http://seed.com", 0), ("http://seed.com", 1)]⟩

/-- Claim C3 (amended): when the URL normalizes successfully, is not yet
visited and the visited count is below MaxPages, enqueuing it N >= 1
times (in any normalization-equivalent variants) appends exactly one
queue item, emits exactly one queued event and bumps the queued
counter exactly once; every later call is a silent no-op because the
normalized URL is already in the visited set. -/
theorem enqueue_dedup (cfg : CrawlConfig) (s : CrawlState) (u : String) (d : Int)
    (calls : List (String × Int))
    (h1 : normalizeURL u ≠ "")
    (h2 : normalizeURL u ∉ s.visited)
    (h3 : (s.visited.length : Int) < cfg.maxPages)
    (h4 : ∀ p ∈ calls, normalizeURL p.1 = normalizeURL u) :
    enqueueAll cfg s ((u, d) :: calls)
      = { s with
          visited := s.visited ++ [normalizeURL u]
          queue := s.queue ++ [⟨normalizeURL u, d⟩]
          created := s.created ++ [⟨normalizeURL u, d⟩]
          pagesQueued := s.pagesQueued + 1
          events := s.events ++ [CrawlEvent.pageQueued (normalizeURL u)] } := by
  rcases enqueue_spec cfg s u d with he | ⟨_, _, _, he⟩
  · rw [enqueue] at he
    rw [if_neg h1, if_neg h2, if_neg (not_le.mpr h3)] at he
    exact absurd he (by
      intro hcontr
      have := congrArg CrawlState.pagesQueued hcontr
      simp at this)
  · show enqueueAll cfg (enqueue cfg s u d) calls = _
    rw [he]
    refine enqueueAll_noop cfg (normalizeURL u) calls _ ?_ h4
    simp

/-- Witness for C3 (amended) at a fresh state with three
normalization-equivalent variants of the same URL. -/
theorem enqueue_dedup_witness :
    normalizeURL "http://seed.com" ≠ "" ∧
    enqueueAll cexCfg newCrawl
        [("http://seed.com", 0), ("http://seed.com/", 1), ("http://seed.com#x", 2)]
      = { newCrawl with
          visited := [normalizeURL "http://seed.com"]
          queue := [⟨normalizeURL "http://seed.com", 0⟩]
          created := [⟨normalizeURL "http://seed.com", 0⟩]
          pagesQueued := 1
          events := [CrawlEvent.pageQueued (normalizeURL "http://seed.com")] } :=
  ⟨by decide,
   enqueue_dedup cexCfg newCrawl "http://seed.com" 0
     [("http://seed.com/", 1), ("http://seed.com#x", 2)]
     (by decide) (by decide) (by decide) (by decide)⟩

/-- Claim C3 counterexample: for a raw URL that fails normalization (here a
mailto URL), N = 1 enqueue calls append zero queue items and emit zero
queued events, not exactly one as the claim states for every raw
URL. -/
theorem enqueue_dedup_cex :
    (enqueueAll cexCfg newCrawl [("mailto:x@y", 0)]).queue.length = 0 ∧
    (enqueueAll cexCfg newCrawl [("mailto:x@y", 0)]).queue.length ≠ 1 ∧
    (enqueueAll cexCfg newCrawl [("mailto:x@y", 0)]).events = [] ∧
    (enqueueAll cexCfg newCrawl [("mailto:x@y", 0)]).pagesQueued = 0 := by
  decide

/-! ## processURL lemmas -/

/-- Behaviour of processURL when the fetch fails: the error counter is
bumped, a started and an error event (with the URL and the message)
are emitted, and nothing else changes. -/
theorem processURL_fetchError_eq (cfg : CrawlConfig) (browAvail : Bool)
    (oracle : String → Int → FetchOutcome) (s : CrawlState) (item : QueueItem)
    (msg : String) (h : oracle item.url item.depth = .fetchError msg) :
    processURL cfg browAvail oracle s item
      = ({ s with
            pagesErrored := s.pagesErrored + 1
            events := s.events ++ [CrawlEvent.pageStarted item.url,
                                   CrawlEvent.pageError item.url msg] },
         chooseFetcher cfg browAvail s.pagesCrawled) := by
  simp [processURL, h]

/-- Full characterization of the link-discovery loop: it appends some
list of fresh frontier items, all at the requested depth, with
pairwise distinct normalized URLs not yet visited, together with one
queued event and one counter bump each. -/
theorem discoverLinks_spec (cfg : CrawlConfig) (d : Int) :
    ∀ (items : List ExtractedItem) (s : CrawlState), ∃ added : List QueueItem,
      discoverLinks cfg d items s
        = { s with
            visited := s.visited ++ added.map QueueItem.url
            queue := s.queue ++ added
            created := s.created ++ added
            pagesQueued := s.pagesQueued + added.length
            events := s.events ++ added.map (fun i => CrawlEvent.pageQueued i.url) } ∧
      (∀ i ∈ added, i.depth = d ∧ i.url ∉ s.visited ∧ i.url ≠ "") ∧
      (added.map QueueItem.url).Nodup := by
  intro items
  induction items with
  | nil =>
    intro s
    refine ⟨[], by simp [discoverLinks], by simp, by simp⟩
  | cons it its ih =>
    intro s
    have hstep : discoverLinks cfg d (it :: its) s
        = discoverLinks cfg d its
            (if it.type = "link" ∧ (it.linkType = "internal" ∨ cfg.allowExternal = true)
             then enqueue cfg s it.value d else s) := rfl
    by_cases hc : it.type = "link" ∧ (it.linkType = "internal" ∨ cfg.allowExternal = true)
    · rw [hstep, if_pos hc]
      rcases enqueue_spec cfg s it.value d with he | ⟨hne, hnv, _, he⟩
      · rw [he]
        exact ih s
      · rw [he]
        obtain ⟨added, h1, h2, h3⟩ := ih
          { s with
            visited := s.visited ++ [normalizeURL it.value]
            queue := s.queue ++ [⟨normalizeURL it.value, d⟩]
            created := s.created ++ [⟨normalizeURL it.value, d⟩]
            pagesQueued := s.pagesQueued + 1
            events := s.events ++ [CrawlEvent.pageQueued (normalizeURL it.value)] }
        refine ⟨⟨normalizeURL it.value, d⟩ :: added, ?_, ?_, ?_⟩
        · rw [h1]
          simp [List.append_assoc, Nat.add_comm, Nat.add_assoc, Nat.add_left_comm]
        · intro i hi
          rcases List.mem_cons.mp hi with hi | hi
          · subst hi
            exact ⟨rfl, hnv, hne⟩
          · obtain ⟨hd1, hd2, hd3⟩ := h2 i hi
            refine ⟨hd1, ?_, hd3⟩
            intro hmem
            exact hd2 (by simp [hmem])
        · refine List.nodup_cons.mpr ⟨?_, h3⟩
          intro hmem
          rcases List.mem_map.mp hmem with ⟨i, hi, hiu⟩
          have := (h2 i hi).2.1
          apply this
          simp [hiu]
    · rw [hstep, if_neg hc]
      exact ih s

/-- Behaviour of processURL when the fetch succeeds: the crawled and
item counters are bumped, the result is written when output is
enabled, started and done events are emitted, and the discovered
links are enqueued at depth + 1 exactly when the current depth is
below MaxDepth. -/
theorem processURL_success_spec (cfg : CrawlConfig) (browAvail : Bool)
    (oracle : String → Int → FetchOutcome) (s : CrawlState) (item : QueueItem)
    (items : List ExtractedItem)
    (h : oracle item.url item.depth = .success items) :
    ∃ added : List QueueItem,
      processURL cfg browAvail oracle s item
        = ({ s with
              visited := s.visited ++ added.map QueueItem.url
              queue := s.queue ++ added
              created := s.created ++ added
              pagesQueued := s.pagesQueued + added.length
              pagesCrawled := s.pagesCrawled + 1
              itemsExtracted := s.itemsExtracted + items.length
              written := if cfg.saveOutput then s.written ++ [item.url] else s.written
              events := (s.events ++ [CrawlEvent.pageStarted item.url,
                          CrawlEvent.pageDone item.url])
                        ++ added.map (fun i => CrawlEvent.pageQueued i.url) },
           chooseFetcher cfg browAvail s.pagesCrawled) ∧
      (∀ i ∈ added, i.depth = item.depth + 1 ∧ i.url ∉ s.visited ∧ i.url ≠ "") ∧
      (added.map QueueItem.url).Nodup ∧
      (item.depth < cfg.maxDepth ∨ added = []) := by
  by_cases hd : item.depth < cfg.maxDepth
  · have heq : processURL cfg browAvail oracle s item
        = (discoverLinks cfg (item.depth + 1) items
            { s with
              pagesCrawled := s.pagesCrawled + 1
              itemsExtracted := s.itemsExtracted + items.length
              written := if cfg.saveOutput then s.written ++ [item.url] else s.written
              events := s.events ++ [CrawlEvent.pageStarted item.url,
                                     CrawlEvent.pageDone item.url] },
           chooseFetcher cfg browAvail s.pagesCrawled) := by
      simp [processURL, h, hd]
    obtain ⟨added, h1, h2, h3⟩ := discoverLinks_spec cfg (item.depth + 1) items
      { s with
        pagesCrawled := s.pagesCrawled + 1
        itemsExtracted := s.itemsExtracted + items.length
        written := if cfg.saveOutput then s.written ++ [item.url] else s.written
        events := s.events ++ [CrawlEvent.pageStarted item.url,
                               CrawlEvent.pageDone item.url] }
    refine ⟨added, ?_, ?_, h3, Or.inl hd⟩
    · rw [heq, h1]
    · exact h2
  · refine ⟨[], ?_, by simp, by simp, Or.inr rfl⟩
    simp [processURL, h, hd]

/-! ## Scheduler run helpers -/

theorem runFrom_invariant (cfg : CrawlConfig) (browAvail : Bool)
    (oracle : String → Int → FetchOutcome) (P : SchedState → Prop)
    (hstep : ∀ s a, P s → P (step cfg browAvail oracle s a)) :
    ∀ (acts : List Action) (s : SchedState), P s →
      P (runFrom cfg browAvail oracle s acts) := by
  intro acts
  induction acts with
  | nil =>
    intro s hs
    exact hs
  | cons a as ih =>
    intro s hs
    exact ih _ (hstep s a hs)

theorem runActs_eq_runFrom (cfg : CrawlConfig) (browAvail : Bool)
    (oracle : String → Int → FetchOutcome) (acts : List Action) :
    runActs cfg browAvail oracle acts = runFrom cfg browAvail oracle (initSched cfg) acts :=
  rfl

/-! ## Claim theorems C8 and C6 -/

/-- Claim C8: when the fetch of a queue item fails, processURL bumps the
errored-pages counter, emits an error event carrying the URL and the
message, and returns without extraction, without writing a result,
without touching the crawled and item counters, and without any
enqueue; completing such a worker leaves the control flags and the
remaining queue untouched, so the crawl itself is not aborted. -/
theorem fetch_error_handling (cfg : CrawlConfig) (browAvail : Bool)
    (oracle : String → Int → FetchOutcome) (t : SchedState) (item : QueueItem)
    (msg : String) (i : Nat)
    (h : oracle item.url item.depth = .fetchError msg)
    (hi : t.inFlight[i]? = some item) :
    processURL cfg browAvail oracle t.fr item
      = ({ t.fr with
            pagesErrored := t.fr.pagesErrored + 1
            events := t.fr.events ++ [CrawlEvent.pageStarted item.url,
                                      CrawlEvent.pageError item.url msg] },
         chooseFetcher cfg browAvail t.fr.pagesCrawled) ∧
    (step cfg browAvail oracle t (.complete i)).fr.pagesCrawled = t.fr.pagesCrawled ∧
    (step cfg browAvail oracle t (.complete i)).fr.itemsExtracted = t.fr.itemsExtracted ∧
    (step cfg browAvail oracle t (.complete i)).fr.written = t.fr.written ∧
    (step cfg browAvail oracle t (.complete i)).fr.queue = t.fr.queue ∧
    (step cfg browAvail oracle t (.complete i)).fr.visited = t.fr.visited ∧
    (step cfg browAvail oracle t (.complete i)).fr.created = t.fr.created ∧
    (step cfg browAvail oracle t (.complete i)).fr.pagesQueued = t.fr.pagesQueued ∧
    (step cfg browAvail oracle t (.complete i)).fr.pagesErrored = t.fr.pagesErrored + 1 ∧
    (step cfg browAvail oracle t (.complete i)).stopped = t.stopped ∧
    (step cfg browAvail oracle t (.complete i)).mainLoopDone = t.mainLoopDone ∧
    (step cfg browAvail oracle t (.complete i)).finished = t.finished := by
  have he := processURL_fetchError_eq cfg browAvail oracle t.fr item msg h
  refine ⟨he, ?_⟩
  simp [step, hi, he]

/-- Oracle that fails every fetch. -/
def errOracle : String → Int → FetchOutcome := fun _ _ => .fetchError "boom"

/-- Witness for C8 on a concrete run whose only fetch fails. -/
theorem fetch_error_handling_witness :
    errOracle "http://seed.com/" 0 = FetchOutcome.fetchError "boom" ∧
    (step cexCfg false errOracle (runActs cexCfg false errOracle [.dispatch])
        (.complete 0)).fr.pagesCrawled
      = (runActs cexCfg false errOracle [.dispatch]).fr.pagesCrawled :=
  ⟨by decide,
   (fetch_error_handling cexCfg false errOracle
      (runActs cexCfg false errOracle [.dispatch]) ⟨"http://seed.com/", 0⟩ "boom" 0
      (by decide) (by decide)).2.1⟩

/-- Claim C6 supporting theorem: the entire observable behaviour of a run is
independent of the configured CrawlDuration; the scheduler never reads
it, so in particular no loop boundary ever checks the elapsed time
against the ceiling. -/
theorem crawlDuration_never_enforced (cfg : CrawlConfig) (d1 d2 : Int)
    (browAvail : Bool) (oracle : String → Int → FetchOutcome) (acts : List Action) :
    runActs { cfg with crawlDuration := d1 } browAvail oracle acts
      = runActs { cfg with crawlDuration := d2 } browAvail oracle acts := rfl

/-! ## Depth cap (C4) -/

/-- Every frontier item a step creates either existed before or was
enqueued by link discovery at a depth d0 + 1 whose guard d0 < MaxDepth
held. -/
theorem step_created_sub (cfg : CrawlConfig) (browAvail : Bool)
    (oracle : String → Int → FetchOutcome) (s : SchedState) (a : Action) :
    ∀ i ∈ (step cfg browAvail oracle s a).fr.created,
      i ∈ s.fr.created ∨ ∃ d0 : Int, d0 < cfg.maxDepth ∧ i.depth = d0 + 1 := by
  intro i hi
  cases a with
  | stop => exact Or.inl hi
  | dispatch =>
    simp only [step] at hi
    split at hi
    · exact Or.inl hi
    · split at hi
      · exact Or.inl hi
      · split at hi
        · exact Or.inl hi
        · split at hi
          · exact Or.inl hi
          · exact Or.inl hi
  | finish =>
    simp only [step] at hi
    split at hi
    · exact Or.inl hi
    · exact Or.inl hi
  | complete j =>
    simp only [step] at hi
    rcases hj : s.inFlight[j]? with _ | item
    · rw [hj] at hi
      exact Or.inl hi
    · rw [hj] at hi
      dsimp only at hi
      rcases ho : oracle item.url item.depth with msg | items
      · rw [processURL_fetchError_eq cfg browAvail oracle s.fr item msg ho] at hi
        exact Or.inl hi
      · obtain ⟨added, h1, h2, _, h4⟩ :=
          processURL_success_spec cfg browAvail oracle s.fr item items ho
        rw [h1] at hi
        dsimp only at hi
        rcases List.mem_append.mp hi with hi | hi
        · exact Or.inl hi
        · rcases h4 with h4 | h4
          · exact Or.inr ⟨item.depth, h4, (h2 i hi).1⟩
          · rw [h4] at hi
            simp at hi

/-- Claim C4: assuming MaxDepth is nonnegative, every frontier item ever
created over any schedule (seed at depth 0, discovered links at
depth + 1 behind the depth guard) has depth at most MaxDepth, and
processing an item whose depth equals MaxDepth triggers no enqueue at
all: queue, created history and visited set are left untouched. -/
theorem frontier_depth_cap (cfg : CrawlConfig) (browAvail : Bool)
    (oracle : String → Int → FetchOutcome) (h : 0 ≤ cfg.maxDepth) :
    (∀ (acts : List Action),
      ∀ i ∈ (runActs cfg browAvail oracle acts).fr.created, i.depth ≤ cfg.maxDepth) ∧
    (∀ (s : CrawlState) (item : QueueItem), item.depth = cfg.maxDepth →
      (processURL cfg browAvail oracle s item).1.queue = s.queue ∧
      (processURL cfg browAvail oracle s item).1.created = s.created ∧
      (processURL cfg browAvail oracle s item).1.visited = s.visited) := by
  constructor
  · intro acts
    have hinit : ∀ i ∈ (initSched cfg).fr.created, i.depth ≤ cfg.maxDepth := by
      intro i hi
      simp only [initSched, initialCrawl] at hi
      rcases enqueue_spec cfg
          { visited := [], queue := [], pagesQueued := 0, pagesCrawled := 0
          , pagesErrored := 0, itemsExtracted := 0
          , events := [CrawlEvent.crawlStarted cfg.targetURL], written := []
          , created := [] } cfg.targetURL 0 with he | ⟨_, _, _, he⟩
      · rw [he] at hi
        simp at hi
      · rw [he] at hi
        dsimp only at hi
        simp only [List.nil_append, List.mem_singleton] at hi
        rw [hi]
        exact h
    have hstep : ∀ (t : SchedState) (a : Action),
        (∀ i ∈ t.fr.created, i.depth ≤ cfg.maxDepth) →
        (∀ i ∈ (step cfg browAvail oracle t a).fr.created, i.depth ≤ cfg.maxDepth) := by
      intro t a ht i hi
      rcases step_created_sub cfg browAvail oracle t a i hi with hi | ⟨d0, hd0, hdep⟩
      · exact ht i hi
      · rw [hdep]
        omega
    exact runFrom_invariant cfg browAvail oracle _ hstep acts (initSched cfg) hinit
  · intro s item hdep
    rcases ho : oracle item.url item.depth with msg | items
    · rw [processURL_fetchError_eq cfg browAvail oracle s item msg ho]
      exact ⟨rfl, rfl, rfl⟩
    · have hnd : ¬ item.depth < cfg.maxDepth := by
        rw [hdep]
        exact lt_irrefl _
      obtain ⟨added, h1, _, _, h4⟩ :=
        processURL_success_spec cfg browAvail oracle s item items ho
      rcases h4 with h4 | h4
      · exact absurd h4 hnd
      · rw [h1, h4]
        simp

/-- Witness for C4: in the concrete two-page run, the deepest created
item respects the depth cap. -/
theorem frontier_depth_cap_witness :
    0 ≤ cexCfg.maxDepth ∧ (⟨"http://seed.com/a", 1⟩ : QueueItem).depth ≤ cexCfg.maxDepth :=
  ⟨by decide,
   (frontier_depth_cap cexCfg false cexOracle (by decide)).1
     [.dispatch, .dispatch, .complete 0, .finish] ⟨"http://seed.com/a", 1⟩ (by decide)⟩

/-! ## Automatic fetcher selection (C7) -/

/-- The fetcher processURL reports is the one chosen from the crawled
counter as it stood when the worker started. -/
theorem processURL_snd (cfg : CrawlConfig) (browAvail : Bool)
    (oracle : String → Int → FetchOutcome) (s : CrawlState) (item : QueueItem) :
    (processURL cfg browAvail oracle s item).2
      = chooseFetcher cfg browAvail s.pagesCrawled := by
  rcases ho : oracle item.url item.depth with msg | items
  · rw [processURL_fetchError_eq cfg browAvail oracle s item msg ho]
  · obtain ⟨added, h1, _, _, _⟩ :=
      processURL_success_spec cfg browAvail oracle s item items ho
    rw [h1]

/-- processURL only ever appends to the queue, and appends something
only when it also bumps the crawled counter. -/
theorem processURL_effects (cfg : CrawlConfig) (browAvail : Bool)
    (oracle : String → Int → FetchOutcome) (s : CrawlState) (item : QueueItem) :
    ∃ added : List QueueItem,
      (processURL cfg browAvail oracle s item).1.queue = s.queue ++ added ∧
      ((processURL cfg browAvail oracle s item).1.pagesCrawled = s.pagesCrawled + 1 ∨
       ((processURL cfg browAvail oracle s item).1.pagesCrawled = s.pagesCrawled ∧
        added = [])) := by
  rcases ho : oracle item.url item.depth with msg | items
  · refine ⟨[], ?_, Or.inr ⟨?_, rfl⟩⟩
    · rw [processURL_fetchError_eq cfg browAvail oracle s item msg ho]
      simp
    · rw [processURL_fetchError_eq cfg browAvail oracle s item msg ho]
  · obtain ⟨added, h1, _, _, _⟩ :=
      processURL_success_spec cfg browAvail oracle s item items ho
    refine ⟨added, ?_, Or.inl ?_⟩
    · rw [h1]
    · rw [h1]

theorem chooseFetcher_auto_zero (cfg : CrawlConfig) (hm : cfg.fetcherMode = .auto) :
    chooseFetcher cfg true 0 = FetcherKind.browser := by
  simp [chooseFetcher, hm]

theorem chooseFetcher_auto_pos (cfg : CrawlConfig) (hm : cfg.fetcherMode = .auto)
    (n : Nat) (hn : 1 ≤ n) : chooseFetcher cfg true n = FetcherKind.http := by
  have hne : n ≠ 0 := by omega
  simp [chooseFetcher, hm, hne]

/-- Invariant behind C7: before any completion the crawled counter is
zero and at most one item (the seed) exists in the system; afterwards
the first log entry used the rendered fetcher, every later one used
the basic fetcher, and either some page already crawled successfully
or the whole system is empty so no further work can ever appear. -/
def AutoInv (s : SchedState) : Prop :=
  (s.processedLog = [] →
    s.fr.pagesCrawled = 0 ∧ s.fr.queue.length + s.inFlight.length ≤ 1) ∧
  (∀ hd tl, s.processedLog = hd :: tl →
    hd.2 = FetcherKind.browser ∧ (∀ q ∈ tl, q.2 = FetcherKind.http) ∧
    (1 ≤ s.fr.pagesCrawled ∨ (s.fr.queue = [] ∧ s.inFlight = [])))

theorem autoInv_init (cfg : CrawlConfig) : AutoInv (initSched cfg) := by
  constructor
  · intro _
    rcases enqueue_spec cfg
        { visited := [], queue := [], pagesQueued := 0, pagesCrawled := 0
        , pagesErrored := 0, itemsExtracted := 0
        , events := [CrawlEvent.crawlStarted cfg.targetURL], written := []
        , created := [] } cfg.targetURL 0 with he | ⟨_, _, _, he⟩ <;>
      constructor <;> simp [initSched, initialCrawl, he]
  · intro hd tl h
    simp [initSched] at h

theorem autoInv_step (cfg : CrawlConfig) (oracle : String → Int → FetchOutcome)
    (hm : cfg.fetcherMode = .auto) (s : SchedState) (a : Action)
    (h : AutoInv s) : AutoInv (step cfg true oracle s a) := by
  obtain ⟨h1, h2⟩ := h
  cases a with
  | stop => exact ⟨h1, h2⟩
  | finish =>
    simp only [step]
    split
    · exact ⟨h1, h2⟩
    · exact ⟨h1, h2⟩
  | dispatch =>
    simp only [step]
    split
    · exact ⟨h1, h2⟩
    · rcases hq : s.fr.queue with _ | ⟨item, rest⟩
      · exact ⟨h1, h2⟩
      · dsimp only
        have hlen1 : s.processedLog = [] →
            rest.length + s.inFlight.length ≤ 1 ∧
            rest.length + (s.inFlight.length + 1) ≤ 1 := by
          intro hl
          have hlen := (h1 hl).2
          rw [hq] at hlen
          simp only [List.length_cons] at hlen
          omega
        have hthird : ∀ hd tl, s.processedLog = hd :: tl → 1 ≤ s.fr.pagesCrawled := by
          intro hd tl hl
          rcases (h2 hd tl hl).2.2 with hc | ⟨hqe, _⟩
          · exact hc
          · rw [hq] at hqe
            exact absurd hqe (by simp)
        split
        · -- stopped: the dequeued item is dropped
          constructor
          · intro hl
            refine ⟨(h1 hl).1, ?_⟩
            exact ((hlen1 hl).1)
          · intro hd tl hl
            exact ⟨(h2 hd tl hl).1, (h2 hd tl hl).2.1, Or.inl (hthird hd tl hl)⟩
        · split
          · -- spawn the worker
            constructor
            · intro hl
              refine ⟨(h1 hl).1, ?_⟩
              have := (hlen1 hl).2
              simpa using this
            · intro hd tl hl
              exact ⟨(h2 hd tl hl).1, (h2 hd tl hl).2.1, Or.inl (hthird hd tl hl)⟩
          · exact ⟨h1, h2⟩
  | complete j =>
    simp only [step]
    rcases hj : s.inFlight[j]? with _ | item
    · exact ⟨h1, h2⟩
    · dsimp only
      have hmem : item ∈ s.inFlight := List.getElem?_mem hj
      have hjlt : j < s.inFlight.length := by
        rcases List.getElem?_eq_some.mp hj with ⟨hlt, _⟩
        exact hlt
      have hsnd := processURL_snd cfg true oracle s.fr item
      obtain ⟨added, hque, hcr⟩ := processURL_effects cfg true oracle s.fr item
      rcases hlog : s.processedLog with _ | ⟨hd0, tl0⟩
      · -- first completion: the seed, chosen with zero pages crawled
        obtain ⟨hc0, hlen⟩ := h1 hlog
        have hfk : (processURL cfg true oracle s.fr item).2 = FetcherKind.browser := by
          rw [hsnd, hc0]
          exact chooseFetcher_auto_zero cfg hm
        constructor
        · intro hl
          exact absurd hl (by simp)
        · intro hd tl hl
          simp only [List.nil_append] at hl
          obtain ⟨hhd, htl⟩ : hd = (item, (processURL cfg true oracle s.fr item).2)
              ∧ tl = [] := by
            have hls := hl.symm
            simp only [List.cons.injEq] at hls
            exact hls
          refine ⟨by rw [hhd, hfk], by rw [htl]; simp, ?_⟩
          rcases hcr with hcr | ⟨hcr, hadd⟩
          · exact Or.inl (by rw [hcr, hc0])
          · -- fetch failed: nothing was added and the system is empty
            have hq0 : s.fr.queue = [] := by
              have hq0' : s.fr.queue.length = 0 := by omega
              exact List.length_eq_zero.mp hq0'
            have hif1 : s.inFlight.length = 1 := by omega
            refine Or.inr ⟨?_, ?_⟩
            · rw [hque, hadd, hq0]
              rfl
            · have : (s.inFlight.eraseIdx j).length = 0 := by
                rw [List.length_eraseIdx]
                split <;> omega
              exact List.length_eq_zero.mp this
      · -- later completion: crawled is positive or the system was empty
        obtain ⟨hbr, htl, hthird⟩ := h2 hd0 tl0 hlog
        have hpos : 1 ≤ s.fr.pagesCrawled := by
          rcases hthird with hc | ⟨_, hie⟩
          · exact hc
          · rw [hie] at hmem
            exact absurd hmem (by simp)
        have hfk : (processURL cfg true oracle s.fr item).2 = FetcherKind.http := by
          rw [hsnd]
          exact chooseFetcher_auto_pos cfg hm _ hpos
        constructor
        · intro hl
          exact absurd hl (by simp)
        · intro hd tl hl
          rw [List.cons_append] at hl
          obtain ⟨hhd, htl'⟩ : hd = hd0
              ∧ tl = tl0 ++ [(item, (processURL cfg true oracle s.fr item).2)] := by
            have hls := hl.symm
            simp only [List.cons.injEq] at hls
            exact hls
          refine ⟨by rw [hhd]; exact hbr, ?_, ?_⟩
          · intro q hqmem
            rw [htl'] at hqmem
            rcases List.mem_append.mp hqmem with hq | hq
            · exact htl q hq
            · have : q = (item, (processURL cfg true oracle s.fr item).2) := by
                simpa using hq
              rw [this, hfk]
          · left
            rcases hcr with hcr | ⟨hcr, _⟩
            · rw [hcr]
              omega
            · rw [hcr]
              exact hpos

/-- Claim C7: in automatic mode with the rendered capability available, the
first completed page of any run used the rendered (browser) fetcher
and every subsequently completed page used the basic (HTTP)
fetcher. -/
theorem auto_rendered_first_page_only (cfg : CrawlConfig)
    (oracle : String → Int → FetchOutcome) (hm : cfg.fetcherMode = .auto)
    (acts : List Action) (hd : QueueItem × FetcherKind)
    (tl : List (QueueItem × FetcherKind))
    (hlog : (runActs cfg true oracle acts).processedLog = hd :: tl) :
    hd.2 = FetcherKind.browser ∧ ∀ q ∈ tl, q.2 = FetcherKind.http := by
  have hinv := runFrom_invariant cfg true oracle AutoInv
    (fun s a hs => autoInv_step cfg oracle hm s a hs) acts (initSched cfg)
    (autoInv_init cfg)
  rw [runActs_eq_runFrom] at hlog
  exact ⟨(hinv.2 hd tl hlog).1, (hinv.2 hd tl hlog).2.1⟩

/-- Automatic-mode configuration for the concrete runs. -/
def autoCfg : CrawlConfig :=
  { cexCfg with fetcherMode := .auto }

/-- Witness for C7 on a concrete two-page auto-mode run: the seed page
used the browser fetcher and the discovered page used HTTP. -/
theorem auto_rendered_first_page_only_witness :
    autoCfg.fetcherMode = FetcherMode.auto ∧
    ((⟨"http://seed.com/", 0⟩, FetcherKind.browser) : QueueItem × FetcherKind).2
      = FetcherKind.browser ∧
    ∀ q ∈ [((⟨"http://seed.com/a", 1⟩ : QueueItem), FetcherKind.http)],
      q.2 = FetcherKind.http :=
  ⟨rfl,
   (auto_rendered_first_page_only autoCfg cexOracle rfl
      [.dispatch, .complete 0, .dispatch, .complete 0]
      (⟨"http://seed.com/", 0⟩, .browser) [(⟨"http://seed.com/a", 1⟩, .http)]
      (by decide)).1,
   (auto_rendered_first_page_only autoCfg cexOracle rfl
      [.dispatch, .complete 0, .dispatch, .complete 0]
      (⟨"http://seed.com/", 0⟩, .browser) [(⟨"http://seed.com/a", 1⟩, .http)]
      (by decide)).2⟩

/-! ## Well-formedness of scheduler states (towards C10) -/

/-- Whether an event is a started, done or error event for the given
URL (the per-page lifecycle events of one fetch). -/
def touchesUrl (e : CrawlEvent) (u : String) : Bool :=
  match e with
  | .pageStarted v => v = u
  | .pageDone v => v = u
  | .pageError v _ => v = u
  | _ => false

/-- All URLs present in the system: pending, in flight, or done. -/
def allUrls (s : SchedState) : List String :=
  s.fr.queue.map QueueItem.url ++ s.inFlight.map QueueItem.url
    ++ s.processedLog.map (fun p => p.1.url)

/-- Well-formedness: each normalized URL occurs at most once across
queue, in-flight set and processed log; all of them are marked
visited and nonempty; and any started, done or error event belongs to
a URL that was dispatched (in flight or processed). -/
structure WF (s : SchedState) : Prop where
  nodup : (allUrls s).Nodup
  sub : ∀ u ∈ allUrls s, u ∈ s.fr.visited
  ne : ∀ u ∈ allUrls s, u ≠ ""
  ev : ∀ e ∈ s.fr.events, ∀ u, touchesUrl e u = true →
        u ∈ s.inFlight.map QueueItem.url ++ s.processedLog.map (fun p => p.1.url)

theorem getElem?_decomp {α : Type} (l : List α) (j : Nat) (a : α) (h : l[j]? = some a) :
    l.take j ++ a :: l.drop (j + 1) = l := by
  conv_rhs => rw [← List.take_append_drop j l]
  congr 1
  have hj : j < l.length := (List.getElem?_eq_some.mp h).1
  rw [List.drop_eq_getElem_cons hj]
  have := (List.getElem?_eq_some.mp h).2
  rw [this]

open List in
theorem perm_block_err (Q A B P : List String) (a : String) :
    List.Perm (Q ++ (A ++ B) ++ (P ++ [a])) (Q ++ (A ++ a :: B) ++ P) := by
  have h1 : List.Perm (B ++ (P ++ [a])) (a :: (B ++ P)) := by
    have : B ++ (P ++ [a]) = (B ++ P) ++ [a] := by simp [List.append_assoc]
    rw [this]
    exact List.perm_append_singleton a (B ++ P)
  calc Q ++ (A ++ B) ++ (P ++ [a])
      = Q ++ (A ++ (B ++ (P ++ [a]))) := by simp [List.append_assoc]
    _ ~ Q ++ (A ++ (a :: (B ++ P))) := List.Perm.append_left Q (List.Perm.append_left A h1)
    _ = Q ++ (A ++ a :: B) ++ P := by simp [List.append_assoc]

open List in
theorem perm_block_succ (Q N A B P : List String) (a : String) :
    List.Perm ((Q ++ N) ++ (A ++ B) ++ (P ++ [a])) ((Q ++ (A ++ a :: B) ++ P) ++ N) := by
  calc (Q ++ N) ++ (A ++ B) ++ (P ++ [a])
      = Q ++ (N ++ ((A ++ B) ++ (P ++ [a]))) := by simp [List.append_assoc]
    _ ~ Q ++ (((A ++ B) ++ (P ++ [a])) ++ N) := List.Perm.append_left Q List.perm_append_comm
    _ = (Q ++ (A ++ B) ++ (P ++ [a])) ++ N := by simp [List.append_assoc]
    _ ~ (Q ++ (A ++ a :: B) ++ P) ++ N := (perm_block_err Q A B P a).append_right N

theorem mem_reshuffle {A B P : List String} {a u : String}
    (h : u ∈ (A ++ a :: B) ++ P) : u ∈ (A ++ B) ++ (P ++ [a]) := by
  simp only [List.mem_append, List.mem_cons, List.mem_singleton] at h ⊢
  tauto

theorem wf_init (cfg : CrawlConfig) : WF (initSched cfg) := by
  rcases enqueue_spec cfg
      { visited := [], queue := [], pagesQueued := 0, pagesCrawled := 0
      , pagesErrored := 0, itemsExtracted := 0
      , events := [CrawlEvent.crawlStarted cfg.targetURL], written := []
      , created := [] } cfg.targetURL 0 with he | ⟨hne, _, _, he⟩
  · refine ⟨?_, ?_, ?_, ?_⟩ <;> simp [initSched, initialCrawl, he, allUrls, touchesUrl]
  · refine ⟨?_, ?_, ?_, ?_⟩
    · simp [initSched, initialCrawl, he, allUrls]
    · intro u hu
      simp [initSched, initialCrawl, he, allUrls] at hu ⊢
      exact hu
    · intro u hu
      simp [initSched, initialCrawl, he, allUrls] at hu
      rw [hu]
      exact hne
    · intro e he' u ht
      simp [initSched, initialCrawl, he] at he'
      rcases he' with he' | he' <;> rw [he'] at ht <;> simp [touchesUrl] at ht

theorem wf_step (cfg : CrawlConfig) (browAvail : Bool)
    (oracle : String → Int → FetchOutcome) (s : SchedState) (a : Action)
    (h : WF s) : WF (step cfg browAvail oracle s a) := by
  obtain ⟨hnd, hsub, hne, hev⟩ := h
  cases a with
  | stop => exact ⟨hnd, hsub, hne, hev⟩
  | finish =>
    simp only [step]
    split
    · refine ⟨hnd, hsub, hne, ?_⟩
      intro e he u ht
      rcases List.mem_append.mp he with he | he
      · exact hev e he u ht
      · have : e = CrawlEvent.crawlFinished := by simpa using he
        rw [this] at ht
        simp [touchesUrl] at ht
    · exact ⟨hnd, hsub, hne, hev⟩
  | dispatch =>
    simp only [step]
    split
    · exact ⟨hnd, hsub, hne, hev⟩
    · rcases hq : s.fr.queue with _ | ⟨item, rest⟩
      · exact ⟨hnd, hsub, hne, hev⟩
      · dsimp only
        have hall : allUrls s
            = item.url :: (rest.map QueueItem.url ++ (s.inFlight.map QueueItem.url
                ++ s.processedLog.map (fun p => p.1.url))) := by
          simp [allUrls, hq]
        split
        · -- stopped: dequeue and drop the item
          have hall2 : allUrls { s with fr := { s.fr with queue := rest }, mainLoopDone := true }
              = rest.map QueueItem.url ++ (s.inFlight.map QueueItem.url
                  ++ s.processedLog.map (fun p => p.1.url)) := by
            simp [allUrls]
          refine ⟨?_, ?_, ?_, ?_⟩
          · rw [hall2]
            have := hnd
            rw [hall] at this
            exact this.of_cons
          · intro u hu
            rw [hall2] at hu
            exact hsub u (by rw [hall]; exact List.mem_cons_of_mem _ hu)
          · intro u hu
            rw [hall2] at hu
            exact hne u (by rw [hall]; exact List.mem_cons_of_mem _ hu)
          · exact hev
        · split
          · -- spawn a worker for the dequeued item
            have hall2 : allUrls { s with fr := { s.fr with queue := rest }, inFlight := s.inFlight ++ [item] }
                = (rest.map QueueItem.url ++ s.inFlight.map QueueItem.url)
                    ++ item.url :: s.processedLog.map (fun p => p.1.url) := by
              simp [allUrls, List.append_assoc]
            have hperm : List.Perm (allUrls { s with fr := { s.fr with queue := rest }, inFlight := s.inFlight ++ [item] }) (allUrls s) := by
              rw [hall2, hall]
              have := @List.perm_middle String item.url
                (rest.map QueueItem.url ++ s.inFlight.map QueueItem.url)
                (s.processedLog.map (fun p => p.1.url))
              simpa [List.append_assoc] using this
            refine ⟨?_, ?_, ?_, ?_⟩
            · exact hperm.symm.nodup hnd
            · intro u hu
              exact hsub u (hperm.mem_iff.mp hu)
            · intro u hu
              exact hne u (hperm.mem_iff.mp hu)
            · intro e he u ht
              have := hev e he u ht
              simp only [List.mem_append, List.map_append, List.map_cons,
                List.mem_singleton, List.mem_cons, List.map_nil] at this ⊢
              tauto
          · exact ⟨hnd, hsub, hne, hev⟩
  | complete j =>
    simp only [step]
    rcases hj : s.inFlight[j]? with _ | item
    · exact ⟨hnd, hsub, hne, hev⟩
    · dsimp only
      have hdec : s.inFlight.take j ++ item :: s.inFlight.drop (j + 1) = s.inFlight :=
        getElem?_decomp _ _ _ hj
      have hmap : s.inFlight.map QueueItem.url
          = (s.inFlight.take j).map QueueItem.url
            ++ item.url :: (s.inFlight.drop (j + 1)).map QueueItem.url := by
        conv_lhs => rw [← hdec]
        simp
      have hermap : (s.inFlight.eraseIdx j).map QueueItem.url
          = (s.inFlight.take j).map QueueItem.url
            ++ (s.inFlight.drop (j + 1)).map QueueItem.url := by
        rw [List.eraseIdx_eq_take_drop_succ]
        simp
      have hall : allUrls s
          = s.fr.queue.map QueueItem.url
            ++ ((s.inFlight.take j).map QueueItem.url
                ++ item.url :: (s.inFlight.drop (j + 1)).map QueueItem.url)
            ++ s.processedLog.map (fun p => p.1.url) := by
        rw [allUrls, hmap]
      rcases ho : oracle item.url item.depth with msg | items
      · rw [processURL_fetchError_eq cfg browAvail oracle s.fr item msg ho]
        dsimp only
        have hall2 : allUrls { s with fr := { s.fr with pagesErrored := s.fr.pagesErrored + 1, events := s.fr.events ++ [CrawlEvent.pageStarted item.url, CrawlEvent.pageError item.url msg] }, inFlight := s.inFlight.eraseIdx j, processedLog := s.processedLog ++ [(item, chooseFetcher cfg browAvail s.fr.pagesCrawled)] }
            = s.fr.queue.map QueueItem.url
              ++ ((s.inFlight.take j).map QueueItem.url
                  ++ (s.inFlight.drop (j + 1)).map QueueItem.url)
              ++ (s.processedLog.map (fun p => p.1.url) ++ [item.url]) := by
          simp [allUrls, hermap]
        have hperm := perm_block_err (s.fr.queue.map QueueItem.url)
          ((s.inFlight.take j).map QueueItem.url)
          ((s.inFlight.drop (j + 1)).map QueueItem.url)
          (s.processedLog.map (fun p => p.1.url)) item.url
        refine ⟨?_, ?_, ?_, ?_⟩
        · rw [hall2]
          exact hperm.symm.nodup (by rw [← hall]; exact hnd)
        · intro u hu
          rw [hall2] at hu
          exact hsub u (by rw [hall]; exact hperm.mem_iff.mp hu)
        · intro u hu
          rw [hall2] at hu
          exact hne u (by rw [hall]; exact hperm.mem_iff.mp hu)
        · intro e he u ht
          rcases List.mem_append.mp he with he | he
          · have hthis := hev e he u ht
            rw [hmap] at hthis
            rw [hermap]
            simp only [List.map_append, List.map_cons, List.map_nil, List.mem_append,
              List.mem_cons, List.mem_singleton, List.not_mem_nil] at hthis ⊢
            tauto
          · have : e = CrawlEvent.pageStarted item.url
                ∨ e = CrawlEvent.pageError item.url msg := by simpa using he
            have hu : u = item.url := by
              rcases this with h' | h' <;> rw [h'] at ht <;>
                simpa [touchesUrl, eq_comm] using ht
            rw [hu, hermap]
            simp
      · obtain ⟨added, h1, h2, h3, _⟩ :=
          processURL_success_spec cfg browAvail oracle s.fr item items ho
        rw [h1]
        dsimp only
        have hall2 : allUrls { s with fr := { s.fr with visited := s.fr.visited ++ added.map QueueItem.url, queue := s.fr.queue ++ added, created := s.fr.created ++ added, pagesQueued := s.fr.pagesQueued + added.length, pagesCrawled := s.fr.pagesCrawled + 1, itemsExtracted := s.fr.itemsExtracted + items.length, written := if cfg.saveOutput then s.fr.written ++ [item.url] else s.fr.written, events := (s.fr.events ++ [CrawlEvent.pageStarted item.url, CrawlEvent.pageDone item.url]) ++ added.map (fun i => CrawlEvent.pageQueued i.url) }, inFlight := s.inFlight.eraseIdx j, processedLog := s.processedLog ++ [(item, chooseFetcher cfg browAvail s.fr.pagesCrawled)] }
            = (s.fr.queue.map QueueItem.url ++ added.map QueueItem.url)
              ++ ((s.inFlight.take j).map QueueItem.url
                  ++ (s.inFlight.drop (j + 1)).map QueueItem.url)
              ++ (s.processedLog.map (fun p => p.1.url) ++ [item.url]) := by
          simp [allUrls, hermap]
        have hperm := perm_block_succ (s.fr.queue.map QueueItem.url)
          (added.map QueueItem.url)
          ((s.inFlight.take j).map QueueItem.url)
          ((s.inFlight.drop (j + 1)).map QueueItem.url)
          (s.processedLog.map (fun p => p.1.url)) item.url
        have hdisj : ∀ u ∈ allUrls s, u ∉ added.map QueueItem.url := by
          intro u hu hmem
          rcases List.mem_map.mp hmem with ⟨i, hi, hiu⟩
          have := (h2 i hi).2.1
          rw [hiu] at this
          exact this (hsub u hu)
        refine ⟨?_, ?_, ?_, ?_⟩
        · rw [hall2]
          refine hperm.symm.nodup ?_
          have : (allUrls s ++ added.map QueueItem.url).Nodup := by
            refine List.Nodup.append hnd h3 ?_
            intro u hu hmem
            exact hdisj u hu hmem
          rw [hall] at this
          exact this
        · intro u hu
          rw [hall2] at hu
          have := hperm.mem_iff.mp hu
          rw [← hall] at this
          rcases List.mem_append.mp this with hu' | hu'
          · exact List.mem_append_left _ (hsub u hu')
          · exact List.mem_append_right _ hu'
        · intro u hu
          rw [hall2] at hu
          have := hperm.mem_iff.mp hu
          rw [← hall] at this
          rcases List.mem_append.mp this with hu' | hu'
          · exact hne u hu'
          · rcases List.mem_map.mp hu' with ⟨i, hi, hiu⟩
            rw [← hiu]
            exact (h2 i hi).2.2
        · intro e he u ht
          rcases List.mem_append.mp he with he | he
          · rcases List.mem_append.mp he with he | he
            · have hthis := hev e he u ht
              rw [hmap] at hthis
              rw [hermap]
              simp only [List.map_append, List.map_cons, List.map_nil, List.mem_append,
                List.mem_cons, List.mem_singleton, List.not_mem_nil] at hthis ⊢
              tauto
            · have : e = CrawlEvent.pageStarted item.url
                  ∨ e = CrawlEvent.pageDone item.url := by simpa using he
              have hu : u = item.url := by
                rcases this with h' | h' <;> rw [h'] at ht <;>
                  simpa [touchesUrl, eq_comm] using ht
              rw [hu, hermap]
              simp
          · rcases List.mem_map.mp he with ⟨i, _, hie⟩
            rw [← hie] at ht
            simp [touchesUrl] at ht

theorem wf_run (cfg : CrawlConfig) (browAvail : Bool)
    (oracle : String → Int → FetchOutcome) (acts : List Action) :
    WF (runActs cfg browAvail oracle acts) := by
  rw [runActs_eq_runFrom]
  exact runFrom_invariant cfg browAvail oracle WF
    (fun s a hs => wf_step cfg browAvail oracle s a hs) acts (initSched cfg)
    (wf_init cfg)

/-! ## Stop-flag drop semantics (C10) -/

/-- After a URL has been dropped by the stop check, the rest of the
crawl never processes it, never emits a page event for it, and never
re-queues it; it stays visited and the loop stays exited. -/
def Avoids (u : String) (s : SchedState) : Prop :=
  s.mainLoopDone = true ∧ u ∈ s.fr.visited ∧
  u ∉ s.inFlight.map QueueItem.url ∧
  (∀ p ∈ s.processedLog, p.1.url ≠ u) ∧
  (∀ q ∈ s.fr.queue, q.url ≠ u) ∧
  (∀ e ∈ s.fr.events, touchesUrl e u = false)

theorem avoids_step (cfg : CrawlConfig) (browAvail : Bool)
    (oracle : String → Int → FetchOutcome) (u : String) (s : SchedState) (a : Action)
    (h : Avoids u s) : Avoids u (step cfg browAvail oracle s a) := by
  obtain ⟨hm, hv, hif, hpl, hq, hevs⟩ := h
  cases a with
  | stop => exact ⟨hm, hv, hif, hpl, hq, hevs⟩
  | dispatch =>
    simp only [step]
    rw [if_pos hm]
    exact ⟨hm, hv, hif, hpl, hq, hevs⟩
  | finish =>
    simp only [step]
    split
    · refine ⟨hm, hv, hif, hpl, hq, ?_⟩
      intro e he
      rcases List.mem_append.mp he with he | he
      · exact hevs e he
      · have : e = CrawlEvent.crawlFinished := by simpa using he
        rw [this]
        rfl
    · exact ⟨hm, hv, hif, hpl, hq, hevs⟩
  | complete j =>
    simp only [step]
    rcases hj : s.inFlight[j]? with _ | item
    · exact ⟨hm, hv, hif, hpl, hq, hevs⟩
    · dsimp only
      have hine : item.url ≠ u := by
        intro he
        apply hif
        exact he ▸ List.mem_map_of_mem QueueItem.url (List.getElem?_mem hj)
      have hif2 : u ∉ (s.inFlight.eraseIdx j).map QueueItem.url := by
        intro hmem
        rcases List.mem_map.mp hmem with ⟨x, hx, hxu⟩
        exact hif (List.mem_map.mpr ⟨x, List.eraseIdx_subset _ _ hx, hxu⟩)
      rcases ho : oracle item.url item.depth with msg | items
      · rw [processURL_fetchError_eq cfg browAvail oracle s.fr item msg ho]
        dsimp only
        refine ⟨hm, hv, hif2, ?_, hq, ?_⟩
        · intro p hp
          rcases List.mem_append.mp hp with hp | hp
          · exact hpl p hp
          · have : p = (item, chooseFetcher cfg browAvail s.fr.pagesCrawled) := by
              simpa using hp
            rw [this]
            exact hine
        · intro e he
          rcases List.mem_append.mp he with he | he
          · exact hevs e he
          · have : e = CrawlEvent.pageStarted item.url
                ∨ e = CrawlEvent.pageError item.url msg := by simpa using he
            rcases this with h' | h' <;> rw [h'] <;> simp [touchesUrl, hine]
      · obtain ⟨added, h1, h2, _, _⟩ :=
          processURL_success_spec cfg browAvail oracle s.fr item items ho
        rw [h1]
        dsimp only
        refine ⟨hm, List.mem_append_left _ hv, hif2, ?_, ?_, ?_⟩
        · intro p hp
          rcases List.mem_append.mp hp with hp | hp
          · exact hpl p hp
          · have : p = (item, chooseFetcher cfg browAvail s.fr.pagesCrawled) := by
              simpa using hp
            rw [this]
            exact hine
        · intro q hq'
          rcases List.mem_append.mp hq' with hq' | hq'
          · exact hq q hq'
          · intro he
            have := (h2 q hq').2.1
            rw [he] at this
            exact this hv
        · intro e he
          rcases List.mem_append.mp he with he | he
          · rcases List.mem_append.mp he with he | he
            · exact hevs e he
            · have : e = CrawlEvent.pageStarted item.url
                  ∨ e = CrawlEvent.pageDone item.url := by simpa using he
              rcases this with h' | h' <;> rw [h'] <;> simp [touchesUrl, hine]
          · rcases List.mem_map.mp he with ⟨i, _, hie⟩
            rw [← hie]
            rfl

/-- Claim C10: with the stop flag set and the queue non-empty, the next
control-loop iteration dequeues the head item and exits without
processing it: nothing else in the state changes, the URL stays in
the visited set and in the queued count, and throughout the rest of
the crawl it is never processed, never gets a started, done or error
event, and is never re-enqueued. -/
theorem stop_drops_dequeued_item (cfg : CrawlConfig) (browAvail : Bool)
    (oracle : String → Int → FetchOutcome) (acts moreActs : List Action)
    (item : QueueItem) (rest : List QueueItem)
    (hs : (runActs cfg browAvail oracle acts).stopped = true)
    (hm : (runActs cfg browAvail oracle acts).mainLoopDone = false)
    (hq : (runActs cfg browAvail oracle acts).fr.queue = item :: rest) :
    (step cfg browAvail oracle (runActs cfg browAvail oracle acts) .dispatch).fr.queue
      = rest ∧
    (step cfg browAvail oracle (runActs cfg browAvail oracle acts)
        .dispatch).mainLoopDone = true ∧
    (step cfg browAvail oracle (runActs cfg browAvail oracle acts) .dispatch).inFlight
      = (runActs cfg browAvail oracle acts).inFlight ∧
    (step cfg browAvail oracle (runActs cfg browAvail oracle acts) .dispatch).processedLog
      = (runActs cfg browAvail oracle acts).processedLog ∧
    (step cfg browAvail oracle (runActs cfg browAvail oracle acts) .dispatch).fr.events
      = (runActs cfg browAvail oracle acts).fr.events ∧
    (step cfg browAvail oracle (runActs cfg browAvail oracle acts) .dispatch).fr.visited
      = (runActs cfg browAvail oracle acts).fr.visited ∧
    (step cfg browAvail oracle (runActs cfg browAvail oracle acts)
        .dispatch).fr.pagesQueued
      = (runActs cfg browAvail oracle acts).fr.pagesQueued ∧
    item.url ∈ (step cfg browAvail oracle (runActs cfg browAvail oracle acts)
        .dispatch).fr.visited ∧
    (∀ p ∈ (runFrom cfg browAvail oracle
        (step cfg browAvail oracle (runActs cfg browAvail oracle acts) .dispatch)
        moreActs).processedLog, p.1.url ≠ item.url) ∧
    (∀ e ∈ (runFrom cfg browAvail oracle
        (step cfg browAvail oracle (runActs cfg browAvail oracle acts) .dispatch)
        moreActs).fr.events, touchesUrl e item.url = false) ∧
    (∀ q ∈ (runFrom cfg browAvail oracle
        (step cfg browAvail oracle (runActs cfg browAvail oracle acts) .dispatch)
        moreActs).fr.queue, q.url ≠ item.url) := by
  obtain ⟨hnd, hsub, hne, hev⟩ := wf_run cfg browAvail oracle acts
  have hstep : step cfg browAvail oracle (runActs cfg browAvail oracle acts) .dispatch
      = { runActs cfg browAvail oracle acts with fr := { (runActs cfg browAvail oracle acts).fr with queue := rest }, mainLoopDone := true } := by
    simp only [step]
    rw [if_neg (by simp [hm]), hq]
    dsimp only
    rw [if_pos hs]
  have hall : allUrls (runActs cfg browAvail oracle acts)
      = item.url :: (rest.map QueueItem.url
          ++ ((runActs cfg browAvail oracle acts).inFlight.map QueueItem.url
            ++ (runActs cfg browAvail oracle acts).processedLog.map (fun p => p.1.url))) := by
    simp [allUrls, hq]
  have hvis : item.url ∈ (runActs cfg browAvail oracle acts).fr.visited := by
    apply hsub
    rw [hall]
    exact List.mem_cons_self _ _
  have hnotin : item.url ∉ rest.map QueueItem.url
      ++ ((runActs cfg browAvail oracle acts).inFlight.map QueueItem.url
        ++ (runActs cfg browAvail oracle acts).processedLog.map (fun p => p.1.url)) := by
    have := hnd
    rw [hall] at this
    exact (List.nodup_cons.mp this).1
  have havoid : Avoids item.url
      (step cfg browAvail oracle (runActs cfg browAvail oracle acts) .dispatch) := by
    rw [hstep]
    refine ⟨rfl, hvis, ?_, ?_, ?_, ?_⟩
    · intro hmem
      apply hnotin
      simp only [List.mem_append]
      exact Or.inr (Or.inl hmem)
    · intro p hp he
      apply hnotin
      simp only [List.mem_append]
      exact Or.inr (Or.inr (List.mem_map.mpr ⟨p, hp, he⟩))
    · intro q hq' he
      apply hnotin
      simp only [List.mem_append]
      exact Or.inl (List.mem_map.mpr ⟨q, hq', he⟩)
    · intro e he
      rcases hb : touchesUrl e item.url with _ | _
      · rfl
      · exfalso
        apply hnotin
        have := hev e he item.url hb
        simp only [List.mem_append] at this ⊢
        tauto
  have hfinal := runFrom_invariant cfg browAvail oracle (Avoids item.url)
    (fun t a ht => avoids_step cfg browAvail oracle item.url t a ht) moreActs _ havoid
  refine ⟨by rw [hstep], by rw [hstep], by rw [hstep], by rw [hstep], by rw [hstep],
    by rw [hstep], by rw [hstep], by rw [hstep]; exact hvis, ?_, ?_, ?_⟩
  · intro p hp
    exact hfinal.2.2.2.1 p hp
  · intro e he
    exact hfinal.2.2.2.2.2 e he
  · intro q hq'
    exact hfinal.2.2.2.2.1 q hq'

/-- Witness for C10: stop before the first dispatch; the seed is
dequeued and dropped. -/
theorem stop_drops_dequeued_item_witness :
    (runActs cexCfg false cexOracle [.stop]).stopped = true ∧
    (step cexCfg false cexOracle (runActs cexCfg false cexOracle [.stop])
        .dispatch).fr.queue = [] :=
  ⟨by decide,
   (stop_drops_dequeued_item cexCfg false cexOracle [.stop] [.finish]
      ⟨"http://seed.com/", 0⟩ [] (by decide) (by decide) (by decide)).1⟩

/-! ## The draining race (C1) -/

/-- Claim C1: concrete execution of the scheduler as coded, exhibiting the
draining race.  The seed is dispatched; the control loop then sees an
empty queue and breaks out for good; the in-flight seed worker
completes, discovering and enqueuing a new link; wg.Wait returns and
the crawl finalizes.  The crawl reaches Finished while the discovered
link is still sitting in the frontier: it is never processed and
never even started, contradicting the claim that the scheduler
re-checks the frontier and only finishes when it is empty. -/
theorem quiescence_race_trace :
    (runActs cexCfg false cexOracle
        [.dispatch, .dispatch, .complete 0, .finish]).finished = true ∧
    (runActs cexCfg false cexOracle
        [.dispatch, .dispatch, .complete 0, .finish]).fr.queue
      = [⟨"http://seed.com/a", 1⟩] ∧
    (runActs cexCfg false cexOracle
        [.dispatch, .dispatch, .complete 0, .finish]).processedLog
      = [(⟨"http://seed.com/", 0⟩, .http)] ∧
    CrawlEvent.pageStarted "http://seed.com/a"
      ∉ (runActs cexCfg false cexOracle
          [.dispatch, .dispatch, .complete 0, .finish]).fr.events ∧
    CrawlEvent.pageDone "http://seed.com/a"
      ∉ (runActs cexCfg false cexOracle
          [.dispatch, .dispatch, .complete 0, .finish]).fr.events := by
  decide

end Gofang
